import Mathlib

/-!
# Fork-join work sharing: the OpenMP and pthread teaching programs

A shallow embedding of the C programs

* `OpenMP/omp_reduction.c`  (combined `parallel for reduction(+:sum)`),
* `OpenMP/omp_orphan.c`     (orphaned `for reduction(+:sum)` inside `dotprod`),
* `OpenMP/omp_workshare1.c` (`for schedule(dynamic,chunk)`),
* `OpenMP/omp_workshare2.c` (`sections nowait`),
* `Posix Threads/Condition Variables/producer_consumer.c`,

together with the work distributor, the reduction combiner and the sections
dispatcher under which their loops and sections run.

Conventions.

* A C array is a function from its index to the stored value; a store
  `x[i] = v` is `Function.update x i v`.
* The C type `float` is `F32`: the values the three loop programs store and add
  are non-negative integers, and `F32` carries such a value together with the
  rounding of IEEE-754 binary32 (24 significant bits, ties to even).
* Loops that the programs write as `for (i = 0; i < n; i++)` are folds over
  `List.range n`.
* What a thread team does in which order is an explicit argument: a
  distribution of iterations for the loops whose schedule the program leaves
  open, a list of thread numbers (who takes the next step) for the dynamic
  loop and the sections, a list of actions for the two pthreads.
-/

namespace HPC

/-! ## The `float` values of the loop programs -/

/-- Rounding of a non-negative integer to IEEE-754 binary32: integers below
`2^24` are representable; above, the value keeps its 24 leading bits, the
dropped part rounds to nearest and a tie goes to the even significand.
(Faithful for magnitudes below the binary32 overflow threshold.) -/
def roundF32 (n : Nat) : Nat :=
  if n < 2 ^ 24 then n
  else
    let e := Nat.log2 n - 23
    let q := n / 2 ^ e
    let r := n % 2 ^ e
    let half := 2 ^ (e - 1)
    if r < half then q * 2 ^ e
    else if half < r then (q + 1) * 2 ^ e
    else if q % 2 = 0 then q * 2 ^ e
    else (q + 1) * 2 ^ e

/-- A `float` holding a non-negative integer. -/
structure F32 where
  val : Nat
deriving DecidableEq, Repr

namespace F32

/-- The `float` addition `x + y`: the exact sum, rounded. -/
def add (x y : F32) : F32 := ⟨roundF32 (x.val + y.val)⟩

/-- The `float` multiplication `x * y`: the exact product, rounded. -/
def mul (x y : F32) : F32 := ⟨roundF32 (x.val * y.val)⟩

/-- The store of `i * 1.0` (an `int` times a `double`) into a `float`. -/
def ofInt (i : Nat) : F32 := ⟨roundF32 i⟩

instance : Add F32 := ⟨add⟩
instance : Mul F32 := ⟨mul⟩
instance : Zero F32 := ⟨⟨0⟩⟩

end F32

/-! ## The reduction combiner -/

/-- The loop body `sum = sum + (a[i] * b[i])` shared by `omp_reduction.c`
(line 28) and `omp_orphan.c` (line 23). -/
def body {α : Type} [Add α] [Mul α] (a b : Nat → α) (sum : α) (i : Nat) : α :=
  sum + (a i * b i)

/-- The private copy of `sum` of one thread under `reduction(+:sum)` ("each
thread gets a private copy of sum", closing comment of `omp_reduction.c`): it
starts from the identity `0` of `+` and runs the body over the iterations the
thread was given, in the order the thread runs them. -/
def privateSum {α : Type} [Add α] [Mul α] [Zero α] (a b : Nat → α) (its : List Nat) : α :=
  its.foldl (body a b) 0

/-- Modelled from the spec: the order in which `close_reduction` of the
Reduction Combiner folds the private accumulators into the shared result ("in
an unspecified but deterministic-per-run order", "a tree/pairwise-combine
order"); the runtime that does this for the programs is not code of the
repository.  A leaf is the original value of the shared variable or the private
copy of a thread, a node is one application of the reduction operator.  A
left-leaning comb is a left-to-right fold; a balanced tree is a pairwise
combine. -/
inductive Comb where
  | orig : Comb
  | priv : Nat → Comb
  | node : Comb → Comb → Comb
deriving DecidableEq, Repr

namespace Comb

/-- The leaves of a combine order, left to right (`none` is the original value). -/
def leaves : Comb → List (Option Nat)
  | orig => [none]
  | priv t => [some t]
  | node l r => l.leaves ++ r.leaves

/-- The value a combine order computes with `+`. -/
def eval {α : Type} [Add α] (sum0 : α) (priv : Nat → α) : Comb → α
  | orig => sum0
  | Comb.priv t => priv t
  | node l r => l.eval sum0 priv + r.eval sum0 priv

/-- A combine order for a team of `T` threads uses the original value once and
every private copy once. -/
def Valid (c : Comb) (T : Nat) : Prop :=
  List.Perm c.leaves (none :: (List.range T).map some)

instance (c : Comb) (T : Nat) : Decidable (c.Valid T) := by
  unfold Valid; infer_instance

/-- The left-to-right combine order `((orig + p0) + p1) + ...` of `T` threads. -/
def linear : Nat → Comb
  | 0 => orig
  | T + 1 => node (linear T) (priv T)

end Comb

/-- Modelled from the spec: what any schedule of a work-shared loop over
`0 .. n-1` guarantees ("every index in an IterationSpace is assigned to exactly
one worker exactly once").  Entry `tid` of a distribution lists the iterations
thread `tid` runs, in the order it runs them; the distribution is valid when the
team has at least one thread and every iteration occurs exactly once overall.
The two dot-product programs name no schedule, so their loops are run under an
arbitrary valid distribution. -/
def ValidDist (n : Nat) (parts : List (List Nat)) : Prop :=
  1 ≤ parts.length ∧ List.Perm parts.flatten (List.range n)

instance (n : Nat) (parts : List (List Nat)) : Decidable (ValidDist n parts) := by
  unfold ValidDist; infer_instance

/-- Modelled from the spec: the Reduction Combiner around a work-shared loop,
as the clause `reduction(+:sum)` asks for it: every thread forms its private
sum over its own iterations, and the private sums are folded into the shared
`sum` in the combine order `comb`. -/
def forReduction {α : Type} [Add α] [Mul α] [Zero α] (a b : Nat → α) (sum : α)
    (parts : List (List Nat)) (comb : Comb) : α :=
  comb.eval sum (fun tid => privateSum a b (parts.getD tid []))

/-! ## `omp_reduction.c` -/

namespace omp_reduction

/-- Lines 21-23: `n = 100; for (i=0; i < n; i++) a[i] = b[i] = i * 1.0;`. -/
def init (n : Nat) (a b : Nat → F32) : (Nat → F32) × (Nat → F32) :=
  (List.range n).foldl
    (fun ab i => (Function.update ab.1 i (F32.ofInt i), Function.update ab.2 i (F32.ofInt i)))
    (a, b)

/-- Lines 26-28: `#pragma omp parallel for reduction(+:sum)` over
`for (i=0; i < n; i++) sum = sum + (a[i] * b[i]);`. -/
def parallel_for {α : Type} [Add α] [Mul α] [Zero α] (a b : Nat → α) (sum : α)
    (parts : List (List Nat)) (comb : Comb) : α :=
  forReduction a b sum parts comb

/-- The function `main` up to the `printf`: the value of `sum` that is printed.
`a0` and `b0` are the contents of the uninitialised local arrays. -/
def main (a0 b0 : Nat → F32) (parts : List (List Nat)) (comb : Comb) : F32 :=
  let n := 100
  let ab := init n a0 b0
  let sum : F32 := 0
  parallel_for ab.1 ab.2 sum parts comb

end omp_reduction

/-! ## The parallel region and the context of its workers -/

/-- Modelled from the spec: the error kinds of the engine. -/
inductive EngineError where
  | NoActiveRegion
  | NestedRegionUnsupported
  | InvalidConfiguration
  | UseAfterClose
deriving DecidableEq, Repr

/-- Modelled from the spec: the Team of the data model, as far as a work-shared
loop needs it; the runtime that forms the team is not code of the repository.
A team has its size and, for the work-sharing construct its workers meet, the
share of the iterations each worker is given (entry `tid` for worker `tid`, in
the order the worker runs them). -/
structure Team where
  team_size : Nat
  shares : List (List Nat)
deriving DecidableEq, Repr

/-- Modelled from the spec: the WorkerHandle of the data model: the thread
number of a worker, stable for the lifetime of the region, and its team. -/
structure WorkerHandle where
  thread_id : Nat
  team : Team
deriving DecidableEq, Repr

/-- Modelled from the spec: the Parallel Region Context, the "thread-local
binding set by the Thread Team when a worker begins executing region `body`":
the handle of the worker on a thread inside a region, nothing on a thread
outside any region. -/
abbrev RegionContext := Option WorkerHandle

/-- Modelled from the spec: `current_team`, "readable from any code reachable
from a worker's call stack". -/
def current_team (ctx : RegionContext) : Option Team :=
  match ctx with
  | some h => some h.team
  | none => none

/-- Modelled from the spec: `thread_id()` of the Parallel Region Context, which
the programs call as `omp_get_thread_num()`; outside an active region it "fails
with `NoActiveRegion`". -/
def omp_get_thread_num (ctx : RegionContext) : Except EngineError Nat :=
  match ctx with
  | some h => Except.ok h.thread_id
  | none => Except.error EngineError.NoActiveRegion

/-- Modelled from the spec: `distribute` for a loop that names no schedule,
called by a thread for itself.  It "requires only `current_team()`" and is
passed nothing else: the share of the calling worker is looked up in the team
of its context; "calling outside an active region fails with
`NoActiveRegion`". -/
def distribute (ctx : RegionContext) : Except EngineError (List Nat) :=
  match current_team ctx, omp_get_thread_num ctx with
  | some team, Except.ok tid => Except.ok (team.shares.getD tid [])
  | _, _ => Except.error EngineError.NoActiveRegion

/-- Modelled from the spec: the workers `tids` of a team each running the
region body, every one "with its own WorkerHandle established in its Parallel
Region Context"; the result lists what each worker holds at the join barrier,
or is the first failure. -/
def runWorkers {β : Type} (team : Team) (regionBody : RegionContext → Except EngineError β) :
    List Nat → Except EngineError (List β)
  | [] => Except.ok []
  | tid :: rest =>
    match regionBody (some ⟨tid, team⟩) with
    | Except.error e => Except.error e
    | Except.ok r =>
      match runWorkers team regionBody rest with
      | Except.error e => Except.error e
      | Except.ok rs => Except.ok (r :: rs)

/-- Modelled from the spec: `enter_parallel_region`: the team is formed, each
of its `team_size` workers runs `regionBody` in its own context, and the caller
continues when all have crossed the join barrier.  A zero team size is an
`InvalidConfiguration`. -/
def enter_parallel_region {β : Type} (team : Team)
    (regionBody : RegionContext → Except EngineError β) : Except EngineError (List β) :=
  if team.team_size = 0 then Except.error EngineError.InvalidConfiguration
  else runWorkers team regionBody (List.range team.team_size)

/-! ## `omp_orphan.c` -/

namespace omp_orphan

/-- The constant `VECLEN`. -/
def VECLEN : Nat := 100

/-- The function `dotprod`, called on a thread whose region context is `ctx`.
It takes no argument: the arrays are the globals `a` and `b`, and what it knows
of the team it finds through the context of the calling thread.  Line 19 reads
the thread number; the orphaned `#pragma omp for reduction(+:sum)` of line 20
binds to the team that is active on the calling thread, obtains this thread's
share of the iterations from it, and runs the loop of lines 21-25 over that
share on the private copy of `sum`, which starts from 0.  The result is the
private copy when the loop ends.  The `printf` of line 24 does not touch `sum`
and is left out (the thread number is used by it alone); the function returns
no value that `main` uses. -/
def dotprod {α : Type} [Add α] [Mul α] [Zero α] (a b : Nat → α) (ctx : RegionContext) :
    Except EngineError α :=
  match omp_get_thread_num ctx with
  | Except.error e => Except.error e
  | Except.ok _tid =>
    match distribute ctx with
    | Except.error e => Except.error e
    | Except.ok its => Except.ok (its.foldl (fun sum i => sum + (a i * b i)) 0)

/-- Lines 36-37: `#pragma omp parallel` around the call `dotprod();`: a team of
`parts.length` threads is formed, whose work distributor hands out the shares
`parts`; every thread of the team calls `dotprod` in its own context, and the
private sums are folded into the global `sum` in the combine order `comb` when
the loop construct ends. -/
def parallel {α : Type} [Add α] [Mul α] [Zero α] (a b : Nat → α) (sum : α)
    (parts : List (List Nat)) (comb : Comb) : Except EngineError α :=
  match enter_parallel_region ⟨parts.length, parts⟩ (dotprod a b) with
  | Except.error e => Except.error e
  | Except.ok privs => Except.ok (comb.eval sum (fun tid => privs.getD tid 0))

/-- Lines 32-33: `for (i=0; i < VECLEN; i++) a[i] = b[i] = 1.0 * i;`. -/
def init (a b : Nat → F32) : (Nat → F32) × (Nat → F32) :=
  (List.range VECLEN).foldl
    (fun ab i => (Function.update ab.1 i (F32.ofInt i), Function.update ab.2 i (F32.ofInt i)))
    (a, b)

/-- The function `main` up to the `printf`: the value of the global `sum` that
is printed.  The global arrays start zeroed. -/
def main (parts : List (List Nat)) (comb : Comb) : Except EngineError F32 :=
  let ab := init (fun _ => 0) (fun _ => 0)
  let sum : F32 := 0
  parallel ab.1 ab.2 sum parts comb

end omp_orphan


/-- The exact integer value of the sum of squares over a list of iterations. -/
def sqSum (its : List Nat) : Nat := (its.map (fun i => i * i)).sum

/-- The value at a leaf of a combine order. -/
def Comb.leaf {α : Type} (s : α) (p : Nat → α) : Option Nat → α
  | none => s
  | some t => p t

/-- The loop `for (i=0; i < n; i++) sum = sum + (a[i] * b[i]);` run by a single
thread, in program order, on the shared `sum` itself. -/
def seqLoop {α : Type} [Add α] [Mul α] (a b : Nat → α) (sum : α) (n : Nat) : α :=
  (List.range n).foldl (body a b) sum


/-- An array given by the list of its elements, read by index. -/
def arr {α : Type} [Zero α] (xs : List α) : Nat → α :=
  fun i => xs.getD i 0

/-- The single-threaded left-to-right fold `sum + a[0]*b[0] + ... + a[n-1]*b[n-1]`
the reduction is specified against, written over the arrays themselves. -/
def leftFold {α : Type} [Add α] [Mul α] (as bs : List α) (sum : α) : α :=
  (List.zipWith (· * ·) as bs).foldl (· + ·) sum


/-! ## The work distributor -/

/-- Modelled from the spec: the Assignment of the data model, the unit of work
handed out by the Work Distributor: worker `worker_id` receives the sub-range
`[lo, hi)`. -/
structure Assignment where
  worker_id : Nat
  lo : Nat
  hi : Nat
deriving DecidableEq, Repr

/-- Whether index `i` lies in the range of an assignment. -/
def Assignment.covers (a : Assignment) (i : Nat) : Bool :=
  decide (a.lo ≤ i) && decide (i < a.hi)

/-- The indices of an assignment, in increasing order. -/
def Assignment.indices (a : Assignment) : List Nat :=
  List.range' a.lo (a.hi - a.lo)

/-- How many of the assignments handed out contain index `i`. -/
def timesAssigned (asgs : List Assignment) (i : Nat) : Nat :=
  asgs.countP (fun a => a.covers i)

/-- Two assignments have no index in common: one of them is empty, or one ends
where the other has not yet begun. -/
def Assignment.Disjoint (a b : Assignment) : Prop :=
  a.hi ≤ a.lo ∨ b.hi ≤ b.lo ∨ a.hi ≤ b.lo ∨ b.hi ≤ a.lo

instance (a b : Assignment) : Decidable (a.Disjoint b) := by
  unfold Assignment.Disjoint; infer_instance

/-- Modelled from the spec: the Static policy of the Work Distributor, which is
not code of the repository (the programs run on the OpenMP runtime).  "Total
range divided into `team_size` contiguous (or near-contiguous, remainder
distributed to the lowest-indexed workers) blocks, one Assignment per worker":
with `q` the quotient and `r` the remainder of the length by the team size,
worker `w` gets `q` indices, one more when `w < r`, after the blocks of the
workers below it. -/
def staticAssignment (lower upper team_size w : Nat) : Assignment :=
  let len := upper - lower
  let q := len / team_size
  let r := len % team_size
  let lo := lower + w * q + min w r
  ⟨w, lo, lo + q + (if w < r then 1 else 0)⟩

/-- Modelled from the spec: `distribute` under the Static policy, computed once
for the whole team; a zero team size is an `InvalidConfiguration`. -/
def distributeStatic (lower upper team_size : Nat) : Except EngineError (List Assignment) :=
  if team_size = 0 then Except.error EngineError.InvalidConfiguration
  else Except.ok ((List.range team_size).map (staticAssignment lower upper team_size))

/-- The distribution of `omp_reduction.c` pictured in its closing comment: a
team of 4 under the Static policy, thread `tid` running its block in order. -/
def omp_reduction.static4 : List (List Nat) :=
  (List.range 4).map (fun tid => (staticAssignment 0 100 4 tid).indices)

/-- The private sums of the threads of `omp_reduction.c` when the loop ends,
by thread number. -/
def omp_reduction.private_sums (a0 b0 : Nat → F32) (parts : List (List Nat)) : List F32 :=
  let ab := omp_reduction.init 100 a0 b0
  parts.map (fun its => privateSum ab.1 ab.2 its)

/-- Modelled from the spec: where a worker of the team stands inside one
work-sharing construct under the Dynamic policy: about to claim (`idle`), inside an assignment with `next`
the next index it runs and `hi` the end of the assignment (`running`), or past
an empty claim and on its way to the barrier (`done`). -/
inductive Worker where
  | idle : Worker
  | running (next hi : Nat) : Worker
  | done : Worker
deriving DecidableEq, Repr

/-- Modelled from the spec: the state of one work-sharing construct under the
Dynamic policy: the shared cursor, the workers, the assignments handed out so far (in the order of
the claims), the pairs (worker, index) run so far (in the order they ran), and
the memory the loop body works on. -/
structure Engine (σ : Type) where
  cursor : Nat
  workers : Nat → Worker
  handed : List Assignment
  executed : List (Nat × Nat)
  mem : σ

/-- Modelled from the spec: one claim on the shared cursor of the Dynamic
policy of the Work Distributor, which is not code of the repository.  "Each
call atomically claims the next `chunk_size` indices (last chunk may be
shorter) and returns them as one Assignment; a worker whose claim returns empty
has no more work": the result is the claimed range `[lo, hi)`, or `none`. -/
def claim (upper chunk_size cursor : Nat) : Option (Nat × Nat) :=
  if cursor < upper then some (cursor, min (cursor + chunk_size) upper) else none

/-- Modelled from the spec: one atomic step of worker `w` in a Dynamic
work-sharing construct.  A worker inside an assignment runs the loop body for
its next index; an idle worker claims on the cursor, which either hands it the
next chunk or, when the space is exhausted, sends it to the barrier; a worker
at the barrier, or a number that is no worker of the team, does nothing. -/
def Engine.step {σ : Type} (upper chunk_size team_size : Nat) (loopBody : σ → Nat → Nat → σ)
    (st : Engine σ) (w : Nat) : Engine σ :=
  if w < team_size then
    match st.workers w with
    | Worker.done => st
    | Worker.running i hi =>
      { st with
        mem := loopBody st.mem w i
        executed := st.executed ++ [(w, i)]
        workers := Function.update st.workers w
          (if i + 1 < hi then Worker.running (i + 1) hi else Worker.idle) }
    | Worker.idle =>
      match claim upper chunk_size st.cursor with
      | some (lo, hi) =>
        { st with
          cursor := hi
          handed := st.handed ++ [⟨w, lo, hi⟩]
          workers := Function.update st.workers w (Worker.running lo hi) }
      | none => { st with workers := Function.update st.workers w Worker.done }
  else st

/-- Modelled from the spec: the state in which the construct is entered: the
cursor at the lower bound, every worker about to claim. -/
def Engine.start {σ : Type} (lower : Nat) (mem : σ) : Engine σ :=
  ⟨lower, fun _ => Worker.idle, [], [], mem⟩

/-- Modelled from the spec: the state after the workers have taken their steps
in the order `sched`. -/
def Engine.run {σ : Type} (lower upper chunk_size team_size : Nat) (loopBody : σ → Nat → Nat → σ)
    (mem : σ) (sched : List Nat) : Engine σ :=
  sched.foldl (Engine.step upper chunk_size team_size loopBody) (Engine.start lower mem)

/-- Modelled from the spec: `distribute` under the Dynamic policy for the loop
over `[lower, upper)` with body `loopBody`, the workers stepping in the order
`sched`.  A chunk size that is not positive and a zero team size are an
`InvalidConfiguration`. -/
def distributeDynamic {σ : Type} (lower upper chunk_size team_size : Nat)
    (loopBody : σ → Nat → Nat → σ) (mem : σ) (sched : List Nat) :
    Except EngineError (Engine σ) :=
  if chunk_size = 0 ∨ team_size = 0 then Except.error EngineError.InvalidConfiguration
  else Except.ok (Engine.run lower upper chunk_size team_size loopBody mem sched)

/-- Modelled from the spec: every worker of the team has had an empty claim and
has left the construct ("a worker whose claim returns empty has no more work
and proceeds to the barrier"). -/
def Engine.finished {σ : Type} (team_size : Nat) (st : Engine σ) : Prop :=
  ∀ w, w < team_size → st.workers w = Worker.done

instance {σ : Type} (team_size : Nat) (st : Engine σ) : Decidable (st.finished team_size) := by
  unfold Engine.finished; infer_instance

/-- The ranges of the assignments handed out, in the order of the claims. -/
def Engine.ranges {σ : Type} (st : Engine σ) : List (Nat × Nat) :=
  st.handed.map (fun a => (a.lo, a.hi))

/-- How many assignments worker `w` has received. -/
def Engine.received {σ : Type} (st : Engine σ) (w : Nat) : Nat :=
  st.handed.countP (fun a => decide (a.worker_id = w))

/-- The chunks of `[lower, upper)` of size `chunk_size`, the last one shorter
when the length is no multiple of the chunk size. -/
def chunks (lower upper chunk_size : Nat) : List (Nat × Nat) :=
  (List.range ((upper - lower + chunk_size - 1) / chunk_size)).map
    (fun k => (lower + k * chunk_size, min (lower + (k + 1) * chunk_size) upper))

/-! ## `omp_workshare1.c` -/

namespace omp_workshare1

/-- The constant `CHUNKSIZE`. -/
def CHUNKSIZE : Nat := 10

/-- The constant `N`. -/
def N : Nat := 100

/-- The arrays `a`, `b` and `c` of `main`. -/
structure Mem where
  a : Nat → F32
  b : Nat → F32
  c : Nat → F32

/-- Lines 21-22: `for (i=0; i < N; i++) a[i] = b[i] = i * 1.0;`. -/
def init (m : Mem) : Mem :=
  (List.range N).foldl
    (fun m i => { m with a := Function.update m.a i (F32.ofInt i),
                         b := Function.update m.b i (F32.ofInt i) })
    m

/-- Line 38, one iteration of the work-shared loop run by thread `tid`:
`c[i] = a[i] + b[i];`.  The `printf` of line 39 changes no array and is left
out. -/
def loopBody (m : Mem) (_tid : Nat) (i : Nat) : Mem :=
  { m with c := Function.update m.c i (m.a i + m.b i) }

/-- Lines 25-42: the parallel region with its loop under
`#pragma omp for schedule(dynamic,chunk)`, run by a team of `nthreads` whose
threads take their steps in the order `sched`.  The lines printed before the
loop change no array and are left out. -/
def parallel (m : Mem) (chunk nthreads : Nat) (sched : List Nat) :
    Except EngineError (Engine Mem) :=
  distributeDynamic 0 N chunk nthreads loopBody m sched

/-- The function `main`: initialisation, `chunk = CHUNKSIZE`, then the parallel
region.  `m0` is the content of the uninitialised local arrays. -/
def main (m0 : Mem) (nthreads : Nat) (sched : List Nat) : Except EngineError (Engine Mem) :=
  let m := init m0
  let chunk := CHUNKSIZE
  parallel m chunk nthreads sched

/-- The sequential loop `for (i=0; i<N; i++) c[i] = a[i] + b[i];`. -/
def sequential (m : Mem) : Mem :=
  (List.range N).foldl (fun m i => loopBody m 0 i) m

end omp_workshare1

/-! ## `omp_workshare2.c` -/

/-- Modelled from the spec: `claim_next` of the Sections Dispatcher, which is
not code of the repository: "returns an unclaimed Section and marks it claimed,
or nothing once all are claimed. Uses the same claim-cursor-under-mutual-
exclusion approach as Dynamic distribution, chunk size fixed at 1."  The
sections claimed are those below the cursor; the result is the section claimed,
if any, and the cursor afterwards. -/
def claim_next (sections cursor : Nat) : Option Nat × Nat :=
  match claim sections 1 cursor with
  | some (lo, hi) => (some lo, hi)
  | none => (none, cursor)

/-- Modelled from the spec: the Sections Dispatcher run by a team, as the
Dynamic distribution of the section numbers `0 .. sections-1` with chunk size
1; `runSection m tid k` is section `k` run by thread `tid`. -/
def dispatchSections {σ : Type} (sections team_size : Nat) (runSection : σ → Nat → Nat → σ)
    (mem : σ) (sched : List Nat) : Except EngineError (Engine σ) :=
  distributeDynamic 0 sections 1 team_size runSection mem sched

namespace omp_workshare2

/-- The constant `N`. -/
def N : Nat := 50

/-- The arrays `c` and `d` that the sections write, and the lines
`Thread %d doing section %d` printed so far, as pairs (thread, section). -/
structure Mem (α : Type) where
  c : Nat → α
  d : Nat → α
  out : List (Nat × Nat)

/-- Lines 37-45, the first section run by thread `tid`: it prints
`Thread tid doing section 1`, then `for (i=0; i<N; i++) c[i] = a[i] + b[i];`
(the `printf` per element is left out). -/
def section1 {α : Type} [Add α] (a b : Nat → α) (m : Mem α) (tid : Nat) : Mem α :=
  (List.range N).foldl
    (fun m i => { m with c := Function.update m.c i (a i + b i) })
    { m with out := m.out ++ [(tid, 1)] }

/-- Lines 47-55, the second section run by thread `tid`: it prints
`Thread tid doing section 2`, then `for (i=0; i<N; i++) d[i] = a[i] * b[i];`
(the `printf` per element is left out). -/
def section2 {α : Type} [Mul α] (a b : Nat → α) (m : Mem α) (tid : Nat) : Mem α :=
  (List.range N).foldl
    (fun m i => { m with d := Function.update m.d i (a i * b i) })
    { m with out := m.out ++ [(tid, 2)] }

/-- The two sections of the `sections` construct, by position. -/
def runSection {α : Type} [Add α] [Mul α] (a b : Nat → α) (m : Mem α) (tid : Nat) (k : Nat) :
    Mem α :=
  match k with
  | 0 => section1 a b m tid
  | 1 => section2 a b m tid
  | _ => m

/-- Lines 25-61: the parallel region with its `#pragma omp sections nowait`
construct of two sections, run by a team of `nthreads`.  `a` and `b` are the
arrays after initialisation, `m` holds `c` and `d`. -/
def parallel {α : Type} [Add α] [Mul α] (a b : Nat → α) (m : Mem α) (nthreads : Nat)
    (sched : List Nat) : Except EngineError (Engine (Mem α)) :=
  dispatchSections 2 nthreads (runSection a b) m sched

/-- How often the line `Thread .. doing section k` was printed. -/
def timesRun {α : Type} (m : Mem α) (k : Nat) : Nat :=
  m.out.countP (fun e => decide (e.2 = k))

end omp_workshare2

/-- What holds of the cursor and the assignments handed out after any schedule. -/
structure Engine.HandedInv {σ : Type} (lower upper chunk T : Nat) (st : Engine σ) : Prop where
  lower_le : lower ≤ st.cursor
  cursor_le : st.cursor ≤ upper
  cursor_eq : st.cursor = min (lower + st.handed.length * chunk) upper
  started : ∀ k, k < st.handed.length → lower + k * chunk < upper
  ranges : st.ranges = (List.range st.handed.length).map
    (fun k => (lower + k * chunk, min (lower + (k + 1) * chunk) upper))
  owner : ∀ a ∈ st.handed, a.worker_id < T
  count : ∀ i, timesAssigned st.handed i = if lower ≤ i ∧ i < st.cursor then 1 else 0
  done_exhausted : ∀ w, st.workers w = Worker.done → upper ≤ st.cursor

/-- What holds of the workers and of the iterations run so far after any
schedule: the pending parts of the assignments of distinct workers are
disjoint and lie below the cursor, no index was run twice, every index below
the cursor was run or is pending with exactly the worker that claimed it, and
the memory is the loop body folded over the iterations in the order they ran. -/
structure Engine.ExecInv {σ : Type} (lower T : Nat) (loopBody : σ → Nat → Nat → σ) (mem0 : σ)
    (st : Engine σ) : Prop where
  running : ∀ w i hi, st.workers w = Worker.running i hi → lower ≤ i ∧ i < hi ∧ hi ≤ st.cursor
  disjoint : ∀ w w' i hi i' hi', w ≠ w' → st.workers w = Worker.running i hi →
    st.workers w' = Worker.running i' hi' → hi ≤ i' ∨ hi' ≤ i
  exec_range : ∀ j ∈ st.executed.map Prod.snd, lower ≤ j ∧ j < st.cursor
  exec_not_pending : ∀ w i hi, st.workers w = Worker.running i hi →
    ∀ j ∈ st.executed.map Prod.snd, ¬ (i ≤ j ∧ j < hi)
  exec_nodup : (st.executed.map Prod.snd).Nodup
  covered : ∀ j, lower ≤ j → j < st.cursor →
    j ∈ st.executed.map Prod.snd ∨ ∃ w i hi, st.workers w = Worker.running i hi ∧ i ≤ j ∧ j < hi
  outside : ∀ w, T ≤ w → st.workers w = Worker.idle
  mem_eq : st.mem = st.executed.foldl (fun m e => loopBody m e.1 e.2) mem0
  running_owner : ∀ w i hi, st.workers w = Worker.running i hi →
    ∃ a ∈ st.handed, a.worker_id = w ∧ a.lo ≤ i ∧ a.hi = hi
  exec_owner : ∀ e ∈ st.executed, ∃ a ∈ st.handed, a.worker_id = e.1 ∧ a.lo ≤ e.2 ∧ e.2 < a.hi

/-- The steps a worker still has to take at most, not counting the chunks it
has yet to claim: the pending iterations of its assignment and its next claim. -/
def Worker.weight : Worker → Nat
  | Worker.idle => 1
  | Worker.running i hi => (hi - i) + 1
  | Worker.done => 0

/-- A bound on the number of steps the team of a Dynamic construct can still
take: two for every index not yet claimed (its claim and its run), and the
weights of the workers. -/
def Engine.measure {σ : Type} (upper team_size : Nat) (st : Engine σ) : Nat :=
  2 * (upper - st.cursor) + ((List.range team_size).map (fun w => (st.workers w).weight)).sum

/-- The schedule of `n` steps in which the `T` workers take turns. -/
def roundRobin (T n : Nat) : List Nat :=
  (List.range n).map (fun k => k % T)

/-- The schedule in which worker 0 takes `n` steps before each of the workers
`1 .. T-1` takes one. -/
def firstTakesAll (T n : Nat) : List Nat :=
  List.replicate n 0 ++ (List.range' 1 (T - 1))

/-- Arrays `a`, `b`, `c` of `omp_workshare1.c` holding zeros. -/
def omp_workshare1.zeroMem : omp_workshare1.Mem :=
  ⟨fun _ => 0, fun _ => 0, fun _ => 0⟩

/-- How many workers of a team of `team_size` have claimed nothing. -/
def Engine.claimedNone {σ : Type} (team_size : Nat) (st : Engine σ) : Nat :=
  ((List.range team_size).filter (fun w => decide (st.received w = 0))).length

/-- Arrays `c`, `d` of `omp_workshare2.c` as initialised (zeros), nothing printed. -/
def omp_workshare2.zeroMem : omp_workshare2.Mem Int :=
  ⟨fun _ => 0, fun _ => 0, []⟩

/-! ## `producer_consumer.c` -/

namespace producer_consumer

/-- The two threads created by `main`. -/
inductive Thread where
  | producer
  | consumer
deriving DecidableEq, Repr

/-- Where the thread running `consumer` stands: before `pthread_mutex_lock`
(line 24); at the test of `while (item_available == 0)` (line 25); at the
`printf` of the loop body (line 26); at the call of `pthread_cond_wait`
(line 27); inside `pthread_cond_wait`, blocked on the condition variable with
the mutex released; inside `pthread_cond_wait`, woken and waiting to lock the
mutex again; at `printf("Consumer: Got the item! ...")` (line 30); at
`pthread_mutex_unlock` (line 31); returned. -/
inductive CPc where
  | lock
  | test
  | printWait
  | condWait
  | blocked
  | reacquire
  | got
  | unlock
  | returned
deriving DecidableEq, Repr

/-- Where the thread running `producer` stands: at `sleep(2)` (line 11); before
`pthread_mutex_lock` (line 13); at `item_available = 1` (line 14); at the
`printf` (line 15); at `pthread_cond_signal` (line 17); at
`pthread_mutex_unlock` (line 18); returned. -/
inductive PPc where
  | sleep
  | lock
  | set
  | print
  | signal
  | unlock
  | returned
deriving DecidableEq, Repr

/-- The shared variable `item_available`, the owner of `mutex` if it is locked,
and the program counters of the two threads. -/
structure State where
  item_available : Int
  mutex : Option Thread
  cpc : CPc
  ppc : PPc
deriving DecidableEq, Repr

/-- What can happen next: the producer or the consumer takes its next step, or
the consumer blocked in `pthread_cond_wait` wakes up without a signal. -/
inductive Action where
  | producerStep
  | consumerStep
  | spuriousWakeup
deriving DecidableEq, Repr

/-- The state when both threads have been created: `item_available = 0`
(line 5), the mutex unlocked. -/
def start : State :=
  ⟨0, none, CPc.lock, PPc.sleep⟩

/-- The next step of the function `consumer`; `none` when the thread cannot
move (the mutex is held by the other thread, it is blocked on the condition
variable, or it has returned). -/
def consumer (s : State) : Option State :=
  match s.cpc with
  | CPc.lock =>
    if s.mutex = none then some { s with mutex := some Thread.consumer, cpc := CPc.test }
    else none
  | CPc.test =>
    if s.item_available = 0 then some { s with cpc := CPc.printWait }
    else some { s with cpc := CPc.got }
  | CPc.printWait => some { s with cpc := CPc.condWait }
  | CPc.condWait => some { s with mutex := none, cpc := CPc.blocked }
  | CPc.blocked => none
  | CPc.reacquire =>
    if s.mutex = none then some { s with mutex := some Thread.consumer, cpc := CPc.test }
    else none
  | CPc.got => some { s with cpc := CPc.unlock }
  | CPc.unlock => some { s with mutex := none, cpc := CPc.returned }
  | CPc.returned => none

/-- The next step of the function `producer`; `none` when the thread cannot
move (the mutex is held by the other thread, or it has returned).
`pthread_cond_signal` wakes the consumer if it is blocked on the condition
variable and has no effect otherwise. -/
def producer (s : State) : Option State :=
  match s.ppc with
  | PPc.sleep => some { s with ppc := PPc.lock }
  | PPc.lock =>
    if s.mutex = none then some { s with mutex := some Thread.producer, ppc := PPc.set }
    else none
  | PPc.set => some { s with item_available := 1, ppc := PPc.print }
  | PPc.print => some { s with ppc := PPc.signal }
  | PPc.signal =>
    some { s with cpc := if s.cpc = CPc.blocked then CPc.reacquire else s.cpc, ppc := PPc.unlock }
  | PPc.unlock => some { s with mutex := none, ppc := PPc.returned }
  | PPc.returned => none

/-- One step of the program. -/
def step (s : State) : Action → Option State
  | Action.producerStep => producer s
  | Action.consumerStep => consumer s
  | Action.spuriousWakeup =>
    if s.cpc = CPc.blocked then some { s with cpc := CPc.reacquire } else none

/-- The state after a sequence of steps, if each of them can be taken. -/
def run (s : State) : List Action → Option State
  | [] => some s
  | a :: rest =>
    match step s a with
    | some s' => run s' rest
    | none => none

/-- What holds in every state the program can reach: a thread between its lock
and its unlock owns the mutex, `item_available` is 0 or 1, it is 1 once the
producer has stored it, and the consumer is past its loop only when it is 1. -/
structure Inv (s : State) : Prop where
  consumer_owns : s.cpc = CPc.test ∨ s.cpc = CPc.printWait ∨ s.cpc = CPc.condWait ∨
    s.cpc = CPc.got ∨ s.cpc = CPc.unlock → s.mutex = some Thread.consumer
  producer_owns : s.ppc = PPc.set ∨ s.ppc = PPc.print ∨ s.ppc = PPc.signal ∨
    s.ppc = PPc.unlock → s.mutex = some Thread.producer
  item_bit : s.item_available = 0 ∨ s.item_available = 1
  item_stored : s.ppc = PPc.print ∨ s.ppc = PPc.signal ∨ s.ppc = PPc.unlock ∨
    s.ppc = PPc.returned → s.item_available = 1
  consumer_past : s.cpc = CPc.got ∨ s.cpc = CPc.unlock ∨ s.cpc = CPc.returned →
    s.item_available = 1

/-- An execution in which the consumer waits, wakes up once without a signal,
waits again, is signalled by the producer and gets the item. -/
def spuriousThenSignalled : List Action :=
  [Action.consumerStep, Action.consumerStep, Action.consumerStep, Action.consumerStep,
   Action.spuriousWakeup, Action.consumerStep, Action.consumerStep, Action.consumerStep,
   Action.consumerStep,
   Action.producerStep, Action.producerStep, Action.producerStep, Action.producerStep,
   Action.producerStep, Action.producerStep,
   Action.consumerStep, Action.consumerStep]

end producer_consumer

/-! # Theorems -/

/-! ## Rounding and the exact integer range -/

theorem roundF32_of_lt {n : Nat} (h : n < 2 ^ 24) : roundF32 n = n := by
  unfold roundF32
  rw [if_pos h]

theorem F32.add_val (x y : F32) : (x + y).val = roundF32 (x.val + y.val) := rfl

theorem F32.mul_val (x y : F32) : (x * y).val = roundF32 (x.val * y.val) := rfl

theorem F32.zero_val : (0 : F32).val = 0 := rfl

theorem F32.ext_val {x y : F32} (h : x.val = y.val) : x = y := by
  cases x; cases y; simp_all

theorem sqSum_cons (i : Nat) (its : List Nat) : sqSum (i :: its) = i * i + sqSum its := by
  simp [sqSum]

theorem sqSum_le_of_sublist {l₁ l₂ : List Nat} (h : l₁.Sublist l₂) : sqSum l₁ ≤ sqSum l₂ :=
  (h.map _).sum_le_sum (fun _ _ => Nat.zero_le _)

theorem sqSum_perm {l₁ l₂ : List Nat} (h : l₁.Perm l₂) : sqSum l₁ = sqSum l₂ :=
  (h.map _).sum_eq

theorem sqSum_range_100 : sqSum (List.range 100) = 328350 := by decide

/-- The initialisation loop stores `i` at every index below `n` of both arrays. -/
theorem init_loop_spec (n : Nat) (a b : Nat → F32) :
    ∀ i, i < n →
      ((List.range n).foldl
        (fun ab i => (Function.update ab.1 i (F32.ofInt i), Function.update ab.2 i (F32.ofInt i)))
        (a, b)).1 i = F32.ofInt i ∧
      ((List.range n).foldl
        (fun ab i => (Function.update ab.1 i (F32.ofInt i), Function.update ab.2 i (F32.ofInt i)))
        (a, b)).2 i = F32.ofInt i := by
  induction n with
  | zero => intro i hi; omega
  | succ n ih =>
    intro i hi
    rw [List.range_succ, List.foldl_append]
    simp only [List.foldl_cons, List.foldl_nil]
    by_cases h : i = n
    · subst h; simp
    · have hlt : i < n := by omega
      rw [Function.update_noteq h, Function.update_noteq h]
      exact ih i hlt

theorem F32.ofInt_val_of_lt {i : Nat} (h : i < 2 ^ 24) : (F32.ofInt i).val = i :=
  roundF32_of_lt h

/-- While the running total stays below `2^24` the `float` fold of the loop
body over squares is the exact integer fold. -/
theorem foldl_body_exact (a b : Nat → F32) (its : List Nat) :
    ∀ acc : F32, (∀ i ∈ its, a i = F32.ofInt i ∧ b i = F32.ofInt i ∧ i < 100) →
      acc.val + sqSum its < 2 ^ 24 →
      (its.foldl (body a b) acc).val = acc.val + sqSum its := by
  induction its with
  | nil => intro acc _ _; simp [sqSum]
  | cons i its ih =>
    intro acc hmem hlt
    rw [sqSum_cons] at hlt
    have hi := hmem i (List.mem_cons_self _ _)
    have hsq : i * i < 2 ^ 24 := by
      have : i * i ≤ 99 * 99 := Nat.mul_le_mul (by omega) (by omega)
      omega
    have hstep : (body a b acc i).val = acc.val + i * i := by
      unfold body
      rw [F32.add_val, F32.mul_val, hi.1, hi.2.1, F32.ofInt_val_of_lt (by omega),
        roundF32_of_lt hsq, roundF32_of_lt (by omega)]
    rw [List.foldl_cons, ih (body a b acc i) (fun j hj => hmem j (List.mem_cons_of_mem _ hj))
      (by rw [hstep]; omega), hstep, sqSum_cons]
    omega

theorem privateSum_exact (a b : Nat → F32) (its : List Nat)
    (hmem : ∀ i ∈ its, a i = F32.ofInt i ∧ b i = F32.ofInt i ∧ i < 100)
    (hlt : sqSum its < 2 ^ 24) :
    (privateSum a b its).val = sqSum its := by
  unfold privateSum
  rw [foldl_body_exact a b its 0 hmem (by simpa [F32.zero_val] using hlt), F32.zero_val]
  omega

/-! ## The combine order -/

theorem map_getD_range {β : Type} (parts : List (List Nat)) (g : List Nat → β) :
    (List.range parts.length).map (fun t => g (parts.getD t [])) = parts.map g := by
  apply List.ext_getElem
  · simp
  · intro k h₁ h₂
    have hk : k < parts.length := by simpa using h₁
    simp [List.getElem?_eq_getElem hk]

theorem Comb.sum_leaves_of_valid {M : Type} [AddCommMonoid M] {c : Comb} {T : Nat}
    (h : c.Valid T) (f : Option Nat → M) :
    (c.leaves.map f).sum = f none + ((List.range T).map (fun t => f (some t))).sum := by
  rw [(h.map f).sum_eq]
  simp [Function.comp_def]

/-- With an associative and commutative `+` a combine order computes the sum of
its leaves. -/
theorem Comb.eval_eq_sum {R : Type} [Semiring R] (s : R) (p : Nat → R) (c : Comb) :
    c.eval s p = (c.leaves.map (Comb.leaf s p)).sum := by
  induction c with
  | orig => simp [Comb.eval, Comb.leaves, Comb.leaf]
  | priv t => simp [Comb.eval, Comb.leaves, Comb.leaf]
  | node l r ihl ihr => simp [Comb.eval, Comb.leaves, ihl, ihr]

/-- While the total of the leaves stays below `2^24` a combine order over
`float` computes the exact integer sum of its leaves. -/
theorem Comb.eval_exact (s : F32) (p : Nat → F32) (c : Comb) :
    (c.leaves.map (fun o => (Comb.leaf s p o).val)).sum < 2 ^ 24 →
      (c.eval s p).val = (c.leaves.map (fun o => (Comb.leaf s p o).val)).sum := by
  induction c with
  | orig => intro _; simp [Comb.eval, Comb.leaves, Comb.leaf]
  | priv t => intro _; simp [Comb.eval, Comb.leaves, Comb.leaf]
  | node l r ihl ihr =>
    intro h
    simp only [Comb.leaves, List.map_append, List.sum_append] at h ⊢
    simp only [Comb.eval]
    rw [F32.add_val, ihl (by omega), ihr (by omega), roundF32_of_lt h]

/-! ## The reduction in exact arithmetic -/

theorem foldl_body_eq_sum {R : Type} [Semiring R] (a b : Nat → R) (its : List Nat) :
    ∀ acc : R, its.foldl (body a b) acc = acc + (its.map (fun i => a i * b i)).sum := by
  induction its with
  | nil => intro acc; simp
  | cons i its ih => intro acc; simp [ih, body, add_assoc]

theorem privateSum_eq_sum {R : Type} [Semiring R] (a b : Nat → R) (its : List Nat) :
    privateSum a b its = (its.map (fun i => a i * b i)).sum := by
  simp [privateSum, foldl_body_eq_sum]

/-- In exact arithmetic the work-shared reduction is the initial value plus the
sum of the products over all iterations, whatever the distribution and the
combine order. -/
theorem forReduction_eq_sum {R : Type} [Semiring R] (a b : Nat → R) (sum : R) (n : Nat)
    (parts : List (List Nat)) (comb : Comb)
    (hd : ValidDist n parts) (hc : comb.Valid parts.length) :
    forReduction a b sum parts comb = sum + ((List.range n).map (fun i => a i * b i)).sum := by
  unfold forReduction
  rw [Comb.eval_eq_sum, Comb.sum_leaves_of_valid hc]
  simp only [Comb.leaf]
  rw [map_getD_range parts (fun l => privateSum a b l)]
  congr 1
  rw [← (hd.2.map (fun i => a i * b i)).sum_eq, List.map_flatten, List.sum_flatten,
    List.map_map]
  congr 1
  apply List.map_congr_left
  intro l _
  simp [privateSum_eq_sum]

/-- The same loop run by one thread from `sum`: `sum + a[0]*b[0] + ...`. -/
theorem seqLoop_eq_sum {R : Type} [Semiring R] (a b : Nat → R) (sum : R) (n : Nat) :
    seqLoop a b sum n = sum + ((List.range n).map (fun i => a i * b i)).sum := by
  simp [seqLoop, foldl_body_eq_sum]

/-! ## Arrays given as lists -/

theorem foldl_add_eq_sum {R : Type} [Semiring R] (l : List R) :
    ∀ s : R, l.foldl (· + ·) s = s + l.sum := by
  induction l with
  | nil => intro s; simp
  | cons x l ih => intro s; simp [ih, add_assoc]

theorem map_arr_mul_eq_zipWith {R : Type} [Semiring R] (xs ys : List R) (n : Nat)
    (hx : xs.length = n) (hy : ys.length = n) :
    (List.range n).map (fun i => arr xs i * arr ys i) = List.zipWith (· * ·) xs ys := by
  apply List.ext_getElem
  · simp [hx, hy]
  · intro k h₁ h₂
    have hk : k < n := by simpa using h₁
    simp [arr, List.getElem?_eq_getElem (hx ▸ hk), List.getElem?_eq_getElem (hy ▸ hk)]

/-- Workers whose region body succeeds all reach the join barrier, each with
its own result. -/
theorem runWorkers_ok {β : Type} (team : Team) (regionBody : RegionContext → Except EngineError β)
    (g : Nat → β) (tids : List Nat)
    (h : ∀ tid ∈ tids, regionBody (some ⟨tid, team⟩) = Except.ok (g tid)) :
    runWorkers team regionBody tids = Except.ok (tids.map g) := by
  induction tids with
  | nil => rfl
  | cons tid rest ih =>
    simp only [runWorkers, h tid (List.mem_cons_self _ _),
      ih (fun t ht => h t (List.mem_cons_of_mem _ ht)), List.map_cons]

/-- Inside a region `dotprod` finds the team of the calling thread and returns
the private sum over this thread's share. -/
theorem dotprod_in_region {α : Type} [Add α] [Mul α] [Zero α] (a b : Nat → α) (team : Team)
    (tid : Nat) :
    omp_orphan.dotprod a b (some ⟨tid, team⟩)
      = Except.ok (privateSum a b (team.shares.getD tid [])) := by
  simp only [omp_orphan.dotprod, omp_get_thread_num, distribute, current_team]
  rfl

/-- The parallel region of `omp_orphan.c`, entered by a team of at least one
thread, does not fail, and the orphaned loop that its threads reach through
`dotprod` computes what the work-shared reduction computes for the shares of
the team. -/
theorem orphan_parallel_eq_forReduction {α : Type} [Add α] [Mul α] [Zero α] (a b : Nat → α)
    (sum : α) (parts : List (List Nat)) (comb : Comb) (hT : 1 ≤ parts.length) :
    omp_orphan.parallel a b sum parts comb = Except.ok (forReduction a b sum parts comb) := by
  have hrun : enter_parallel_region ⟨parts.length, parts⟩ (omp_orphan.dotprod a b)
      = Except.ok ((List.range parts.length).map
          (fun tid => privateSum a b (parts.getD tid []))) := by
    unfold enter_parallel_region
    rw [if_neg (by show ¬ parts.length = 0; omega)]
    exact runWorkers_ok _ _ _ _ (fun tid _ => dotprod_in_region a b ⟨parts.length, parts⟩ tid)
  unfold omp_orphan.parallel
  rw [hrun]
  simp only
  unfold forReduction
  congr 2
  funext tid
  rw [map_getD_range parts (fun l => privateSum a b l)]
  by_cases ht : tid < parts.length
  · rw [List.getD_eq_getElem _ _ (by simpa using ht), List.getD_eq_getElem _ _ ht]
    simp
  · rw [List.getD_eq_default _ _ (by simpa using ht), List.getD_eq_default _ _ (by omega)]
    rfl

/-! ## The two dot-product programs on their own data -/

theorem validDist_mem_lt {n : Nat} {parts : List (List Nat)} (hd : ValidDist n parts)
    {tid i : Nat} (hi : i ∈ parts.getD tid []) : i < n := by
  by_cases ht : tid < parts.length
  · rw [List.getD_eq_getElem _ _ ht] at hi
    have : i ∈ parts.flatten := List.mem_flatten.2 ⟨_, List.getElem_mem ht, hi⟩
    exact List.mem_range.1 ((hd.2.mem_iff).1 this)
  · rw [List.getD_eq_default _ _ (by omega)] at hi
    simp at hi

theorem validDist_part_sqSum_le {n : Nat} {parts : List (List Nat)} (hd : ValidDist n parts)
    (tid : Nat) : sqSum (parts.getD tid []) ≤ sqSum (List.range n) := by
  by_cases ht : tid < parts.length
  · rw [List.getD_eq_getElem _ _ ht, ← sqSum_perm hd.2]
    exact sqSum_le_of_sublist (List.sublist_flatten_of_mem (List.getElem_mem ht))
  · rw [List.getD_eq_default _ _ (by omega)]
    simp [sqSum]

theorem sum_map_sqSum (parts : List (List Nat)) :
    (parts.map sqSum).sum = sqSum parts.flatten := by
  rw [show sqSum parts.flatten = (parts.flatten.map (fun i => i * i)).sum from rfl,
    List.map_flatten, List.sum_flatten, List.map_map]
  rfl

/-- On arrays that hold `i` at every index `i < 100` the `float` reduction over
a valid distribution of `[0,100)` is exact and yields 328350. -/
theorem forReduction_squares (a b : Nat → F32) (parts : List (List Nat)) (comb : Comb)
    (hab : ∀ i, i < 100 → a i = F32.ofInt i ∧ b i = F32.ofInt i)
    (hd : ValidDist 100 parts) (hc : comb.Valid parts.length) :
    forReduction a b 0 parts comb = ⟨328350⟩ := by
  have hpriv : ∀ tid, (privateSum a b (parts.getD tid [])).val = sqSum (parts.getD tid []) := by
    intro tid
    apply privateSum_exact
    · intro i hi
      have := validDist_mem_lt hd hi
      exact ⟨(hab i this).1, (hab i this).2, this⟩
    · have := validDist_part_sqSum_le hd tid
      rw [sqSum_range_100] at this
      omega
  have hleaves : (comb.leaves.map (fun o =>
      (Comb.leaf (0 : F32) (fun tid => privateSum a b (parts.getD tid [])) o).val)).sum
      = 328350 := by
    rw [Comb.sum_leaves_of_valid hc]
    simp only [Comb.leaf, hpriv, F32.zero_val, Nat.zero_add]
    rw [map_getD_range parts sqSum, sum_map_sqSum, sqSum_perm hd.2, sqSum_range_100]
  apply F32.ext_val
  unfold forReduction
  rw [Comb.eval_exact _ _ _ (by rw [hleaves]; norm_num), hleaves]

theorem validDist_single (n : Nat) : ValidDist n [List.range n] := by
  constructor
  · simp
  · simp

/-- C1. With `a[i] = b[i] = i` for `i` in `[0,100)` and `sum` initialised to 0,
the sum reduction of `a[i]*b[i]` leaves `sum` equal to 328350 for every team of
at least one thread, every distribution of the 100 iterations over the team and
every combine order, in `omp_reduction.c` and in `omp_orphan.c` alike (whose
parallel region does not fail); every running value of a thread's private sum is the exact integer sum of the squares
it has added so far and lies below `2^24`, so no `float` addition rounds. -/
theorem C1_dot_product_is_328350 (a0 b0 : Nat → F32) (parts : List (List Nat)) (comb : Comb)
    (hd : ValidDist 100 parts) (hc : comb.Valid parts.length) :
    omp_reduction.main a0 b0 parts comb = ⟨328350⟩ ∧
    omp_orphan.main parts comb = Except.ok ⟨328350⟩ ∧
    ∀ tid k,
      (privateSum (omp_reduction.init 100 a0 b0).1 (omp_reduction.init 100 a0 b0).2
        ((parts.getD tid []).take k)).val = sqSum ((parts.getD tid []).take k) ∧
      sqSum ((parts.getD tid []).take k) < 2 ^ 24 := by
  refine ⟨?_, ?_, ?_⟩
  · exact forReduction_squares _ _ parts comb (init_loop_spec 100 a0 b0) hd hc
  · unfold omp_orphan.main
    simp only
    rw [orphan_parallel_eq_forReduction _ _ _ parts comb hd.1]
    exact congrArg Except.ok
      (forReduction_squares _ _ parts comb (init_loop_spec 100 _ _) hd hc)
  · intro tid k
    have hle : sqSum ((parts.getD tid []).take k) ≤ 328350 := by
      have h₁ := sqSum_le_of_sublist (List.take_sublist k (parts.getD tid []))
      have h₂ := validDist_part_sqSum_le hd tid
      rw [sqSum_range_100] at h₂
      omega
    refine ⟨privateSum_exact _ _ _ ?_ (by omega), by omega⟩
    intro i hi
    have hlt := validDist_mem_lt hd (List.mem_of_mem_take hi)
    exact ⟨(init_loop_spec 100 a0 b0 i hlt).1, (init_loop_spec 100 a0 b0 i hlt).2, hlt⟩

/-- Witness of C1: a team of one thread that runs all 100 iterations in order. -/
theorem C1_dot_product_is_328350_witness :
    omp_reduction.main (fun _ => 0) (fun _ => 0) [List.range 100] (Comb.linear 1) = ⟨328350⟩ ∧
    omp_orphan.main [List.range 100] (Comb.linear 1) = Except.ok ⟨328350⟩ :=
  ⟨(C1_dot_product_is_328350 (fun _ => 0) (fun _ => 0) [List.range 100] (Comb.linear 1)
      (validDist_single 100) (by decide)).1,
   (C1_dot_product_is_328350 (fun _ => 0) (fun _ => 0) [List.range 100] (Comb.linear 1)
      (validDist_single 100) (by decide)).2.1⟩

/-- C3. For arrays `a` and `b` of length `n`, every initial `sum`, every
distribution of `[0,n)` over a team and every order of combining the private
sums, the reduction (in `omp_reduction.c`, and in `omp_orphan.c` where
`n = VECLEN`) equals, in exact arithmetic, the single-threaded left-to-right
fold `sum + a[0]*b[0] + ... + a[n-1]*b[n-1]`, which is also what the loop run
by one thread on the shared `sum` computes. -/
theorem C3_reduction_eq_left_fold {R : Type} [Semiring R] (as bs : List R) (n : Nat) (sum : R)
    (parts : List (List Nat)) (comb : Comb)
    (ha : as.length = n) (hb : bs.length = n)
    (hd : ValidDist n parts) (hc : comb.Valid parts.length) :
    omp_reduction.parallel_for (arr as) (arr bs) sum parts comb = leftFold as bs sum ∧
    seqLoop (arr as) (arr bs) sum n = leftFold as bs sum ∧
    (n = omp_orphan.VECLEN →
      omp_orphan.parallel (arr as) (arr bs) sum parts comb
        = Except.ok (leftFold as bs sum)) := by
  have hfold : leftFold as bs sum = sum + ((List.range n).map (fun i => arr as i * arr bs i)).sum := by
    rw [map_arr_mul_eq_zipWith as bs n ha hb]
    exact foldl_add_eq_sum _ _
  refine ⟨?_, ?_, ?_⟩
  · rw [hfold]
    exact forReduction_eq_sum _ _ sum n parts comb hd hc
  · rw [hfold]
    exact seqLoop_eq_sum _ _ sum n
  · intro _
    rw [hfold, orphan_parallel_eq_forReduction _ _ _ parts comb hd.1]
    exact congrArg Except.ok (forReduction_eq_sum _ _ sum n parts comb hd hc)

/-- Witness of C3: the integer arrays `0, 1, .., 99` run by a team of one. -/
theorem C3_reduction_eq_left_fold_witness :
    omp_reduction.parallel_for (arr ((List.range 100).map Int.ofNat))
        (arr ((List.range 100).map Int.ofNat)) 5 [List.range 100] (Comb.linear 1)
      = leftFold ((List.range 100).map Int.ofNat)
          ((List.range 100).map Int.ofNat) 5 :=
  (C3_reduction_eq_left_fold ((List.range 100).map Int.ofNat)
    ((List.range 100).map Int.ofNat) 100 5 [List.range 100] (Comb.linear 1)
    (by simp) (by simp)
    (validDist_single 100) (by decide)).1

/-! ## The static split of `omp_reduction.c` over four threads -/

theorem static4_eq :
    omp_reduction.static4 =
      [List.range' 0 25, List.range' 25 25, List.range' 50 25, List.range' 75 25] := by
  decide

theorem static4_valid : ValidDist 100 omp_reduction.static4 := by
  rw [static4_eq]
  constructor
  · simp
  · have : [List.range' 0 25, List.range' 25 25, List.range' 50 25, List.range' 75 25].flatten
        = List.range 100 := by decide
    rw [this]

theorem static4_private_sums (a0 b0 : Nat → F32) :
    omp_reduction.private_sums a0 b0 omp_reduction.static4 =
      [⟨4900⟩, ⟨35525⟩, ⟨97400⟩, ⟨190525⟩] := by
  have h : ∀ its : List Nat, (∀ i ∈ its, i < 100) → sqSum its < 2 ^ 24 →
      privateSum (omp_reduction.init 100 a0 b0).1 (omp_reduction.init 100 a0 b0).2 its
        = ⟨sqSum its⟩ := by
    intro its hmem hlt
    apply F32.ext_val
    exact privateSum_exact _ _ _
      (fun i hi => ⟨(init_loop_spec 100 a0 b0 i (hmem i hi)).1,
        (init_loop_spec 100 a0 b0 i (hmem i hi)).2, hmem i hi⟩) hlt
  unfold omp_reduction.private_sums
  rw [static4_eq]
  simp only [List.map_cons, List.map_nil]
  rw [h _ (by decide) (by decide), h _ (by decide) (by decide), h _ (by decide) (by decide),
    h _ (by decide) (by decide)]
  decide

/-- C7 (as amended). With 4 threads splitting the loop of `omp_reduction.c`
statically as T0: 0..24, T1: 25..49, T2: 50..74, T3: 75..99, the private sums
of `a[i]*b[i] = i*i` are 4900, 35525, 97400 and 190525, and the final sum is
328350, whatever the arrays held before initialisation and whatever the combine
order. -/
theorem C7_static4_private_sums (a0 b0 : Nat → F32) (comb : Comb) (hc : comb.Valid 4) :
    omp_reduction.static4 =
      [List.range' 0 25, List.range' 25 25, List.range' 50 25, List.range' 75 25] ∧
    omp_reduction.private_sums a0 b0 omp_reduction.static4 =
      [⟨4900⟩, ⟨35525⟩, ⟨97400⟩, ⟨190525⟩] ∧
    omp_reduction.main a0 b0 omp_reduction.static4 comb = ⟨328350⟩ :=
  ⟨static4_eq, static4_private_sums a0 b0,
    forReduction_squares _ _ _ comb (init_loop_spec 100 a0 b0) static4_valid hc⟩

/-- Witness of C7 (as amended): zeroed arrays and the left-to-right combine. -/
theorem C7_static4_private_sums_witness :
    omp_reduction.private_sums (fun _ => 0) (fun _ => 0) omp_reduction.static4 =
      [⟨4900⟩, ⟨35525⟩, ⟨97400⟩, ⟨190525⟩] ∧
    omp_reduction.main (fun _ => 0) (fun _ => 0) omp_reduction.static4 (Comb.linear 4)
      = ⟨328350⟩ :=
  (C7_static4_private_sums (fun _ => 0) (fun _ => 0) (Comb.linear 4) (by decide)).2

/-- Counterexample to C7 as stated: under the 4-thread static split the private
sums of T1, T2 and T3 are not 44875, 132250 and 146325 (they are 35525, 97400
and 190525; only T0 = 4900 and the total 328350 agree with the table). -/
theorem C7_table_sums_wrong :
    omp_reduction.private_sums (fun _ => 0) (fun _ => 0) omp_reduction.static4
      ≠ [⟨4900⟩, ⟨44875⟩, ⟨132250⟩, ⟨146325⟩] := by
  rw [static4_private_sums]
  decide

/-! ## The orphaned loop against the lexical loop -/

section EngineLemmas

variable {σ : Type}

theorem claim_some {upper chunk cursor : Nat} (h : cursor < upper) :
    claim upper chunk cursor = some (cursor, min (cursor + chunk) upper) := by
  simp [claim, h]

theorem claim_none {upper chunk cursor : Nat} (h : upper ≤ cursor) :
    claim upper chunk cursor = none := by
  simp [claim]; omega

/-- The four kinds of step. -/
theorem Engine.step_cases (upper chunk T : Nat) (loopBody : σ → Nat → Nat → σ)
    (st : Engine σ) (w : Nat) :
    (Engine.step upper chunk T loopBody st w = st ∧ (T ≤ w ∨ st.workers w = Worker.done)) ∨
    (∃ i hi, w < T ∧ st.workers w = Worker.running i hi ∧
      Engine.step upper chunk T loopBody st w =
        ⟨st.cursor,
         Function.update st.workers w
           (if i + 1 < hi then Worker.running (i + 1) hi else Worker.idle),
         st.handed, st.executed ++ [(w, i)], loopBody st.mem w i⟩) ∨
    (w < T ∧ st.workers w = Worker.idle ∧ st.cursor < upper ∧
      Engine.step upper chunk T loopBody st w =
        ⟨min (st.cursor + chunk) upper,
         Function.update st.workers w (Worker.running st.cursor (min (st.cursor + chunk) upper)),
         st.handed ++ [⟨w, st.cursor, min (st.cursor + chunk) upper⟩], st.executed, st.mem⟩) ∨
    (w < T ∧ st.workers w = Worker.idle ∧ upper ≤ st.cursor ∧
      Engine.step upper chunk T loopBody st w =
        ⟨st.cursor, Function.update st.workers w Worker.done, st.handed, st.executed, st.mem⟩) := by
  by_cases hw : w < T
  · cases hws : st.workers w with
    | done =>
      left
      simp [Engine.step, hw, hws]
    | running i hi =>
      right; left
      exact ⟨i, hi, hw, rfl, by simp [Engine.step, hw, hws]⟩
    | idle =>
      right; right
      by_cases hc : st.cursor < upper
      · left
        exact ⟨hw, rfl, hc, by simp [Engine.step, hw, hws, claim_some hc]⟩
      · right
        have hc' : upper ≤ st.cursor := by omega
        exact ⟨hw, rfl, hc', by simp [Engine.step, hw, hws, claim_none hc']⟩
  · left
    exact ⟨by simp [Engine.step, hw], Or.inl (by omega)⟩

/-- A property of the start state that every step preserves holds after every
schedule. -/
theorem Engine.run_induction (lower upper chunk T : Nat) (loopBody : σ → Nat → Nat → σ)
    (mem : σ) (P : Engine σ → Prop) (h0 : P (Engine.start lower mem))
    (hstep : ∀ st w, P st → P (Engine.step upper chunk T loopBody st w)) (sched : List Nat) :
    P (Engine.run lower upper chunk T loopBody mem sched) := by
  unfold Engine.run
  generalize Engine.start lower mem = st0 at h0
  induction sched generalizing st0 with
  | nil => exact h0
  | cons w rest ih => exact ih _ (hstep st0 w h0)

theorem Engine.run_append (lower upper chunk T : Nat) (loopBody : σ → Nat → Nat → σ)
    (mem : σ) (s₁ s₂ : List Nat) :
    Engine.run lower upper chunk T loopBody mem (s₁ ++ s₂) =
      s₂.foldl (Engine.step upper chunk T loopBody)
        (Engine.run lower upper chunk T loopBody mem s₁) := by
  simp [Engine.run, List.foldl_append]

/-! ## The dynamic engine: the cursor and the assignments handed out -/

theorem timesAssigned_append (asgs : List Assignment) (a : Assignment) (i : Nat) :
    timesAssigned (asgs ++ [a]) i = timesAssigned asgs i + (if a.lo ≤ i ∧ i < a.hi then 1 else 0) := by
  simp [timesAssigned, List.countP_append, List.countP_cons, Assignment.covers]

theorem Engine.handedInv_step (lower upper chunk T : Nat) (hc : 0 < chunk)
    (loopBody : σ → Nat → Nat → σ) (st : Engine σ) (w : Nat)
    (h : Engine.HandedInv lower upper chunk T st) :
    Engine.HandedInv lower upper chunk T (Engine.step upper chunk T loopBody st w) := by
  rcases Engine.step_cases upper chunk T loopBody st w with
    ⟨he, _⟩ | ⟨i, hi, hw, hws, he⟩ | ⟨hw, hws, hcur, he⟩ | ⟨hw, hws, hcur, he⟩
  · rw [he]; exact h
  · rw [he]
    refine ⟨h.lower_le, h.cursor_le, h.cursor_eq, h.started, h.ranges, h.owner, h.count, ?_⟩
    intro w' hw'
    simp only [Function.update_apply] at hw'
    split_ifs at hw' with h1 h2
    · exact h.done_exhausted w' hw'
  · rw [he]
    have hl := h.lower_le
    have hceq := h.cursor_eq
    have hcur' : st.cursor = lower + st.handed.length * chunk := by omega
    have hsucc : (st.handed.length + 1) * chunk = st.handed.length * chunk + chunk :=
      Nat.succ_mul _ _
    refine ⟨?_, ?_, ?_, ?_, ?_, ?_, ?_, ?_⟩
    · show lower ≤ min (st.cursor + chunk) upper
      omega
    · show min (st.cursor + chunk) upper ≤ upper
      omega
    · show min (st.cursor + chunk) upper = min (lower + (st.handed ++ [_]).length * chunk) upper
      rw [List.length_append, List.length_singleton, hsucc]
      omega
    · intro k hk
      rw [List.length_append, List.length_singleton] at hk
      by_cases hk' : k < st.handed.length
      · exact h.started k hk'
      · have : k = st.handed.length := by omega
        subst this
        omega
    · show (st.handed ++ [_]).map _ = _
      rw [List.map_append, List.length_append, List.length_singleton, List.range_succ,
        List.map_append]
      have := h.ranges
      unfold Engine.ranges at this
      rw [this]
      simp only [List.map_cons, List.map_nil, hsucc]
      rw [hcur']
      simp [Nat.add_assoc]
    · intro a ha
      rcases List.mem_append.1 ha with ha | ha
      · exact h.owner a ha
      · simp at ha; subst ha; exact hw
    · intro j
      show timesAssigned (st.handed ++ [_]) j = _
      rw [timesAssigned_append, h.count j]
      simp only
      split_ifs <;> omega
    · intro w' hw'
      simp only [Function.update_apply] at hw'
      split_ifs at hw' with h1
      have := h.done_exhausted w' hw'
      omega
  · rw [he]
    refine ⟨h.lower_le, h.cursor_le, h.cursor_eq, h.started, h.ranges, h.owner, h.count, ?_⟩
    intro w' _
    exact hcur

theorem Engine.handedInv_run (lower upper chunk T : Nat) (hlu : lower ≤ upper) (hc : 0 < chunk)
    (loopBody : σ → Nat → Nat → σ) (mem : σ) (sched : List Nat) :
    Engine.HandedInv lower upper chunk T (Engine.run lower upper chunk T loopBody mem sched) := by
  apply Engine.run_induction
  · refine ⟨Nat.le_refl _, hlu, ?_, ?_, ?_, ?_, ?_, ?_⟩
    · simp [Engine.start]; omega
    · intro k hk; simp [Engine.start] at hk
    · simp [Engine.start, Engine.ranges]
    · intro a ha; simp [Engine.start] at ha
    · intro i
      rw [if_neg (by simp [Engine.start])]
      simp [Engine.start, timesAssigned]
    · intro w hw; simp [Engine.start] at hw
  · intro st w h
    exact Engine.handedInv_step lower upper chunk T hc loopBody st w h

end EngineLemmas

/-! ## The dynamic engine: the workers and the iterations run -/

section EngineExec

variable {σ : Type}

theorem update_cases {β : Type} (ws : Nat → β) (w : Nat) (v : β) (w' : Nat) (x : β)
    (h : Function.update ws w v w' = x) : (w' = w ∧ v = x) ∨ (w' ≠ w ∧ ws w' = x) := by
  by_cases hw : w' = w
  · subst hw; rw [Function.update_same] at h; exact Or.inl ⟨rfl, h⟩
  · rw [Function.update_noteq hw] at h; exact Or.inr ⟨hw, h⟩

theorem next_cases {i hi i' hi' : Nat}
    (h : (if i + 1 < hi then Worker.running (i + 1) hi else Worker.idle) = Worker.running i' hi') :
    i + 1 < hi ∧ i' = i + 1 ∧ hi' = hi := by
  split_ifs at h with h1
  · injection h with h2 h3
    exact ⟨h1, h2.symm, h3.symm⟩

theorem Engine.execInv_step (lower upper chunk T : Nat) (hc : 0 < chunk)
    (loopBody : σ → Nat → Nat → σ) (mem0 : σ) (st : Engine σ) (w : Nat)
    (hh : Engine.HandedInv lower upper chunk T st)
    (h : Engine.ExecInv lower T loopBody mem0 st) :
    Engine.ExecInv lower T loopBody mem0 (Engine.step upper chunk T loopBody st w) := by
  rcases Engine.step_cases upper chunk T loopBody st w with
    ⟨he, _⟩ | ⟨i, hi, hw, hws, he⟩ | ⟨hw, hws, hcur, he⟩ | ⟨hw, hws, hcur, he⟩
  · rw [he]; exact h
  · -- worker `w` runs index `i`
    rw [he]
    have hr := h.running w i hi hws
    have hnew : i ∉ st.executed.map Prod.snd := fun hmem =>
      h.exec_not_pending w i hi hws i hmem ⟨Nat.le_refl _, hr.2.1⟩
    refine ⟨?_, ?_, ?_, ?_, ?_, ?_, ?_, ?_, ?_, ?_⟩ <;> try dsimp only
    · intro w' i' hi' hw'
      rcases update_cases _ _ _ _ _ hw' with ⟨_, hv⟩ | ⟨_, hv⟩
      · obtain ⟨h1, h2, h3⟩ := next_cases hv
        subst h2 h3
        exact ⟨by omega, h1, hr.2.2⟩
      · exact h.running w' i' hi' hv
    · intro w₁ w₂ i₁ hi₁ i₂ hi₂ hne h₁ h₂
      rcases update_cases _ _ _ _ _ h₁ with ⟨e₁, v₁⟩ | ⟨n₁, v₁⟩ <;>
        rcases update_cases _ _ _ _ _ h₂ with ⟨e₂, v₂⟩ | ⟨n₂, v₂⟩
      · exact absurd (e₁.trans e₂.symm) hne
      · obtain ⟨_, h2, h3⟩ := next_cases v₁
        have := h.disjoint w w₂ i hi i₂ hi₂ (fun e => n₂ e.symm) hws v₂
        omega
      · obtain ⟨_, h2, h3⟩ := next_cases v₂
        have := h.disjoint w₁ w i₁ hi₁ i hi n₁ v₁ hws
        omega
      · exact h.disjoint w₁ w₂ i₁ hi₁ i₂ hi₂ hne v₁ v₂
    · intro j hj
      simp only [List.map_append, List.map_cons, List.map_nil, List.mem_append,
        List.mem_singleton] at hj
      rcases hj with hj | hj
      · exact h.exec_range j hj
      · subst hj; exact ⟨hr.1, by omega⟩
    · intro w' i' hi' hw' j hj
      simp only [List.map_append, List.map_cons, List.map_nil, List.mem_append,
        List.mem_singleton] at hj
      rcases update_cases _ _ _ _ _ hw' with ⟨_, hv⟩ | ⟨hn, hv⟩
      · obtain ⟨_, h2, h3⟩ := next_cases hv
        rcases hj with hj | hj
        · have := h.exec_not_pending w i hi hws j hj
          omega
        · omega
      · rcases hj with hj | hj
        · exact h.exec_not_pending w' i' hi' hv j hj
        · have := h.disjoint w w' i hi i' hi' (fun e => hn e.symm) hws hv
          omega
    · simp only [List.map_append, List.map_cons, List.map_nil]
      rw [List.nodup_append]
      refine ⟨h.exec_nodup, List.nodup_singleton _, ?_⟩
      intro x hx hy
      rw [List.mem_singleton] at hy
      subst hy
      exact hnew hx
    · intro j hl hj
      simp only [List.map_append, List.map_cons, List.map_nil, List.mem_append,
        List.mem_singleton]
      rcases h.covered j hl hj with hj' | ⟨w', i', hi', hw', hlo, hhi⟩
      · exact Or.inl (Or.inl hj')
      · by_cases hww : w' = w
        · subst hww
          rw [hws] at hw'
          injection hw' with e1 e2
          subst e1 e2
          by_cases hji : j = i
          · exact Or.inl (Or.inr hji)
          · right
            refine ⟨w', i + 1, hi, ?_, by omega, hhi⟩
            rw [Function.update_same, if_pos (by omega)]
        · right
          exact ⟨w', i', hi', by rw [Function.update_noteq hww]; exact hw', hlo, hhi⟩
    · intro w' hw'
      rw [Function.update_noteq (by omega)]
      exact h.outside w' hw'
    · show loopBody st.mem w i = List.foldl _ mem0 (st.executed ++ [(w, i)])
      rw [List.foldl_append, ← h.mem_eq]
      rfl
    · intro w' i' hi' hw'
      rcases update_cases _ _ _ _ _ hw' with ⟨e, hv⟩ | ⟨_, hv⟩
      · obtain ⟨_, h2, h3⟩ := next_cases hv
        obtain ⟨a, ha, h4, h5, h6⟩ := h.running_owner w i hi hws
        exact ⟨a, ha, by rw [h4, e], by omega, by omega⟩
      · exact h.running_owner w' i' hi' hv
    · intro e hmem
      rcases List.mem_append.1 hmem with hmem | hmem
      · exact h.exec_owner e hmem
      · simp only [List.mem_singleton] at hmem
        subst hmem
        obtain ⟨a, ha, h4, h5, h6⟩ := h.running_owner w i hi hws
        exact ⟨a, ha, h4, h5, by omega⟩
  · -- worker `w` claims the chunk at the cursor
    rw [he]
    have hlow := hh.lower_le
    have hidle : ∀ i hi, st.workers w ≠ Worker.running i hi := by
      intro i hi hcon; rw [hws] at hcon; cases hcon
    refine ⟨?_, ?_, ?_, ?_, ?_, ?_, ?_, ?_, ?_, ?_⟩ <;> try dsimp only
    · intro w' i' hi' hw'
      rcases update_cases _ _ _ _ _ hw' with ⟨_, hv⟩ | ⟨_, hv⟩
      · injection hv with h2 h3
        subst h2 h3
        exact ⟨hlow, by omega, Nat.le_refl _⟩
      · have := h.running w' i' hi' hv
        exact ⟨this.1, this.2.1, by show hi' ≤ min (st.cursor + chunk) upper; omega⟩
    · intro w₁ w₂ i₁ hi₁ i₂ hi₂ hne h₁ h₂
      rcases update_cases _ _ _ _ _ h₁ with ⟨e₁, v₁⟩ | ⟨n₁, v₁⟩ <;>
        rcases update_cases _ _ _ _ _ h₂ with ⟨e₂, v₂⟩ | ⟨n₂, v₂⟩
      · exact absurd (e₁.trans e₂.symm) hne
      · injection v₁ with h2 h3
        have := h.running w₂ i₂ hi₂ v₂
        omega
      · injection v₂ with h2 h3
        have := h.running w₁ i₁ hi₁ v₁
        omega
      · exact h.disjoint w₁ w₂ i₁ hi₁ i₂ hi₂ hne v₁ v₂
    · intro j hj
      have := h.exec_range j hj
      exact ⟨this.1, by show j < min (st.cursor + chunk) upper; omega⟩
    · intro w' i' hi' hw' j hj
      rcases update_cases _ _ _ _ _ hw' with ⟨_, hv⟩ | ⟨_, hv⟩
      · injection hv with h2 h3
        have := h.exec_range j hj
        omega
      · exact h.exec_not_pending w' i' hi' hv j hj
    · exact h.exec_nodup
    · intro j hl hj
      by_cases hjc : j < st.cursor
      · rcases h.covered j hl hjc with hj' | ⟨w', i', hi', hw', hlo, hhi⟩
        · exact Or.inl hj'
        · right
          have hww : w' ≠ w := fun e => hidle i' hi' (e ▸ hw')
          exact ⟨w', i', hi', by rw [Function.update_noteq hww]; exact hw', hlo, hhi⟩
      · right
        exact ⟨w, st.cursor, min (st.cursor + chunk) upper, by rw [Function.update_same],
          by omega, hj⟩
    · intro w' hw'
      rw [Function.update_noteq (by omega)]
      exact h.outside w' hw'
    · exact h.mem_eq
    · intro w' i' hi' hw'
      rcases update_cases _ _ _ _ _ hw' with ⟨e, hv⟩ | ⟨_, hv⟩
      · injection hv with h2 h3
        exact ⟨⟨w, st.cursor, min (st.cursor + chunk) upper⟩, by simp, e.symm, by
          show st.cursor ≤ i'; omega, h3⟩
      · obtain ⟨a, ha, hrest⟩ := h.running_owner w' i' hi' hv
        exact ⟨a, List.mem_append_left _ ha, hrest⟩
    · intro e hmem
      obtain ⟨a, ha, hrest⟩ := h.exec_owner e hmem
      exact ⟨a, List.mem_append_left _ ha, hrest⟩
  · -- worker `w` finds the space exhausted
    rw [he]
    have hidle : ∀ i hi, st.workers w ≠ Worker.running i hi := by
      intro i hi hcon; rw [hws] at hcon; cases hcon
    have hkeep : ∀ w' i' hi', Function.update st.workers w Worker.done w' = Worker.running i' hi' →
        st.workers w' = Worker.running i' hi' := by
      intro w' i' hi' hw'
      rcases update_cases _ _ _ _ _ hw' with ⟨_, hv⟩ | ⟨_, hv⟩
      · cases hv
      · exact hv
    refine ⟨?_, ?_, h.exec_range, ?_, h.exec_nodup, ?_, ?_, h.mem_eq, ?_, h.exec_owner⟩ <;>
      try dsimp only
    · intro w' i' hi' hw'
      exact h.running w' i' hi' (hkeep _ _ _ hw')
    · intro w₁ w₂ i₁ hi₁ i₂ hi₂ hne h₁ h₂
      exact h.disjoint w₁ w₂ i₁ hi₁ i₂ hi₂ hne (hkeep _ _ _ h₁) (hkeep _ _ _ h₂)
    · intro w' i' hi' hw' j hj
      exact h.exec_not_pending w' i' hi' (hkeep _ _ _ hw') j hj
    · intro j hl hj
      rcases h.covered j hl hj with hj' | ⟨w', i', hi', hw', hlo, hhi⟩
      · exact Or.inl hj'
      · right
        have hww : w' ≠ w := fun e => hidle i' hi' (e ▸ hw')
        exact ⟨w', i', hi', by rw [Function.update_noteq hww]; exact hw', hlo, hhi⟩
    · intro w' hw'
      rw [Function.update_noteq (by omega)]
      exact h.outside w' hw'
    · intro w' i' hi' hw'
      exact h.running_owner w' i' hi' (hkeep _ _ _ hw')

theorem Engine.inv_run (lower upper chunk T : Nat) (hlu : lower ≤ upper) (hc : 0 < chunk)
    (loopBody : σ → Nat → Nat → σ) (mem : σ) (sched : List Nat) :
    Engine.HandedInv lower upper chunk T (Engine.run lower upper chunk T loopBody mem sched) ∧
    Engine.ExecInv lower T loopBody mem (Engine.run lower upper chunk T loopBody mem sched) := by
  apply Engine.run_induction lower upper chunk T loopBody mem
    (fun st => Engine.HandedInv lower upper chunk T st ∧ Engine.ExecInv lower T loopBody mem st)
  · refine ⟨Engine.handedInv_run lower upper chunk T hlu hc loopBody mem [], ?_⟩
    refine ⟨?_, ?_, ?_, ?_, ?_, ?_, ?_, ?_, ?_, ?_⟩ <;> simp [Engine.start]
  · intro st w h
    exact ⟨Engine.handedInv_step lower upper chunk T hc loopBody st w h.1,
      Engine.execInv_step lower upper chunk T hc loopBody mem st w h.1 h.2⟩

end EngineExec

/-! ## The dynamic engine: when every worker has left the construct -/

section EngineFinished

variable {σ : Type}

theorem chunk_count {lower upper chunk len : Nat} (hc : 0 < chunk)
    (hcov : upper ≤ lower + len * chunk)
    (hstart : ∀ k, k < len → lower + k * chunk < upper) :
    (upper - lower + chunk - 1) / chunk = len := by
  apply Nat.div_eq_of_lt_le
  · cases len with
    | zero => simp
    | succ m =>
      have h1 := hstart m (Nat.lt_succ_self m)
      have h2 : (m + 1) * chunk = m * chunk + chunk := Nat.succ_mul _ _
      omega
  · have h2 : (len + 1) * chunk = len * chunk + chunk := Nat.succ_mul _ _
    show upper - lower + chunk - 1 < (len + 1) * chunk
    omega

theorem Engine.finished_no_running {T : Nat} {loopBody : σ → Nat → Nat → σ} {mem0 : σ}
    {lower : Nat} {st : Engine σ} (h : Engine.ExecInv lower T loopBody mem0 st)
    (hfin : st.finished T) (w i hi : Nat) : st.workers w ≠ Worker.running i hi := by
  intro hcon
  by_cases hw : w < T
  · rw [hfin w hw] at hcon; cases hcon
  · rw [h.outside w (by omega)] at hcon; cases hcon

/-- After a schedule under which every worker of a team of at least one has
left the construct: the cursor is at the upper bound, the assignments handed
out are the chunks of the space in order, each to a worker of the team, every
index of the space lies in exactly one of them and no other index in any; the
indices run are a permutation of the space, each run by the worker it was
assigned to, and the memory is the loop body folded over them. -/
theorem Engine.finished_spec (lower upper chunk T : Nat) (hlu : lower ≤ upper) (hc : 0 < chunk)
    (hT : 1 ≤ T) (loopBody : σ → Nat → Nat → σ) (mem : σ) (sched : List Nat)
    (hfin : (Engine.run lower upper chunk T loopBody mem sched).finished T) :
    (Engine.run lower upper chunk T loopBody mem sched).cursor = upper ∧
    (Engine.run lower upper chunk T loopBody mem sched).ranges = chunks lower upper chunk ∧
    (∀ a ∈ (Engine.run lower upper chunk T loopBody mem sched).handed, a.worker_id < T) ∧
    (∀ i, timesAssigned (Engine.run lower upper chunk T loopBody mem sched).handed i
      = if lower ≤ i ∧ i < upper then 1 else 0) ∧
    List.Perm ((Engine.run lower upper chunk T loopBody mem sched).executed.map Prod.snd)
      (List.range' lower (upper - lower)) ∧
    (Engine.run lower upper chunk T loopBody mem sched).mem =
      (Engine.run lower upper chunk T loopBody mem sched).executed.foldl
        (fun m e => loopBody m e.1 e.2) mem := by
  obtain ⟨hh, hx⟩ := Engine.inv_run lower upper chunk T hlu hc loopBody mem sched
  generalize Engine.run lower upper chunk T loopBody mem sched = st at hfin hh hx
  have hcur : st.cursor = upper := by
    have h1 := hh.done_exhausted 0 (hfin 0 (by omega))
    have h2 := hh.cursor_le
    omega
  refine ⟨hcur, ?_, hh.owner, ?_, ?_, hx.mem_eq⟩
  · have hlen : (upper - lower + chunk - 1) / chunk = st.handed.length := by
      apply chunk_count hc
      · have := hh.cursor_eq
        omega
      · exact hh.started
    rw [hh.ranges, chunks, hlen]
  · intro i
    rw [hh.count i, hcur]
  · rw [List.perm_ext_iff_of_nodup hx.exec_nodup (List.nodup_range' _ _)]
    intro j
    rw [List.mem_range'_1]
    constructor
    · intro hj
      have := hx.exec_range j hj
      omega
    · intro hj
      rcases hx.covered j hj.1 (by omega) with hj' | ⟨w, i, hi, hw, _, _⟩
      · exact hj'
      · exact absurd hw (Engine.finished_no_running hx hfin w i hi)

end EngineFinished

/-! ## The dynamic engine: every construct comes to an end -/

section EngineProgress

variable {σ : Type}

theorem sum_weight_update (ws : Nat → Worker) (w : Nat) (v : Worker) (T : Nat) (hw : w < T) :
    ((List.range T).map (fun x => (Function.update ws w v x).weight)).sum + (ws w).weight
      = ((List.range T).map (fun x => (ws x).weight)).sum + v.weight := by
  induction T with
  | zero => omega
  | succ n ih =>
    rw [List.range_succ, List.map_append, List.map_append, List.sum_append, List.sum_append]
    simp only [List.map_cons, List.map_nil, List.sum_cons, List.sum_nil, Nat.add_zero]
    by_cases hn : w = n
    · subst hn
      rw [Function.update_same]
      have hsame : (List.range w).map (fun x => (Function.update ws w v x).weight)
          = (List.range w).map (fun x => (ws x).weight) := by
        apply List.map_congr_left
        intro x hx
        rw [Function.update_noteq (by have := List.mem_range.1 hx; omega)]
      rw [hsame]
      omega
    · rw [Function.update_noteq (fun e => hn e.symm)]
      have := ih (by omega)
      omega

/-- A step of a worker of the team that has not left the construct brings the
construct strictly closer to its end. -/
theorem Engine.measure_step_lt (lower upper chunk T : Nat) (hc : 0 < chunk)
    (loopBody : σ → Nat → Nat → σ) (mem0 : σ) (st : Engine σ) (w : Nat)
    (hx : Engine.ExecInv lower T loopBody mem0 st)
    (hw : w < T) (hnd : st.workers w ≠ Worker.done) :
    Engine.measure upper T (Engine.step upper chunk T loopBody st w) < Engine.measure upper T st := by
  rcases Engine.step_cases upper chunk T loopBody st w with
    ⟨_, h1 | h1⟩ | ⟨i, hi, _, hws, he⟩ | ⟨_, hws, hcur, he⟩ | ⟨_, hws, hcur, he⟩
  · omega
  · exact absurd h1 hnd
  · rw [he]
    unfold Engine.measure
    dsimp only
    have hs := sum_weight_update st.workers w
      (if i + 1 < hi then Worker.running (i + 1) hi else Worker.idle) T hw
    have hr := hx.running w i hi hws
    have hold : (st.workers w).weight = hi - i + 1 := by rw [hws]; rfl
    have hv : (if i + 1 < hi then Worker.running (i + 1) hi else Worker.idle).weight ≤ hi - i := by
      split_ifs with h2
      · show hi - (i + 1) + 1 ≤ hi - i
        omega
      · show 1 ≤ hi - i
        omega
    omega
  · rw [he]
    unfold Engine.measure
    dsimp only
    have hs := sum_weight_update st.workers w
      (Worker.running st.cursor (min (st.cursor + chunk) upper)) T hw
    have hold : (st.workers w).weight = 1 := by rw [hws]; rfl
    have hv : (Worker.running st.cursor (min (st.cursor + chunk) upper)).weight
        = min (st.cursor + chunk) upper - st.cursor + 1 := rfl
    omega
  · rw [he]
    unfold Engine.measure
    dsimp only
    have hs := sum_weight_update st.workers w Worker.done T hw
    have hold : (st.workers w).weight = 1 := by rw [hws]; rfl
    have hv : Worker.done.weight = 0 := rfl
    omega

/-- From the state after any schedule the team can be scheduled on until every
worker has left the construct. -/
theorem Engine.exists_finishing_from (lower upper chunk T : Nat) (hlu : lower ≤ upper)
    (hc : 0 < chunk) (loopBody : σ → Nat → Nat → σ) (mem : σ) :
    ∀ n sched, Engine.measure upper T (Engine.run lower upper chunk T loopBody mem sched) ≤ n →
      ∃ more, (Engine.run lower upper chunk T loopBody mem (sched ++ more)).finished T := by
  intro n
  induction n with
  | zero =>
    intro sched hle
    by_cases hfin : (Engine.run lower upper chunk T loopBody mem sched).finished T
    · exact ⟨[], by simpa using hfin⟩
    · exfalso
      unfold Engine.finished at hfin
      push_neg at hfin
      obtain ⟨w, hw, hnd⟩ := hfin
      obtain ⟨_, hx⟩ := Engine.inv_run lower upper chunk T hlu hc loopBody mem sched
      have := Engine.measure_step_lt lower upper chunk T hc loopBody mem _ w hx hw hnd
      omega
  | succ n ih =>
    intro sched hle
    by_cases hfin : (Engine.run lower upper chunk T loopBody mem sched).finished T
    · exact ⟨[], by simpa using hfin⟩
    · unfold Engine.finished at hfin
      push_neg at hfin
      obtain ⟨w, hw, hnd⟩ := hfin
      obtain ⟨_, hx⟩ := Engine.inv_run lower upper chunk T hlu hc loopBody mem sched
      have hlt := Engine.measure_step_lt lower upper chunk T hc loopBody mem _ w hx hw hnd
      have hstep : Engine.run lower upper chunk T loopBody mem (sched ++ [w]) =
          Engine.step upper chunk T loopBody
            (Engine.run lower upper chunk T loopBody mem sched) w := by
        rw [Engine.run_append]; rfl
      obtain ⟨more, hmore⟩ := ih (sched ++ [w]) (by rw [hstep]; omega)
      exact ⟨w :: more, by simpa using hmore⟩

/-- Every Dynamic construct can run to its end: some schedule lets every worker
leave it. -/
theorem Engine.exists_finishing (lower upper chunk T : Nat) (hlu : lower ≤ upper)
    (hc : 0 < chunk) (loopBody : σ → Nat → Nat → σ) (mem : σ) :
    ∃ sched, (Engine.run lower upper chunk T loopBody mem sched).finished T := by
  obtain ⟨more, h⟩ := Engine.exists_finishing_from lower upper chunk T hlu hc loopBody mem
    _ [] (Nat.le_refl _)
  exact ⟨more, by simpa using h⟩

end EngineProgress

/-! ## The static policy -/

theorem staticAssignment_lo_zero (lower upper T : Nat) :
    (staticAssignment lower upper T 0).lo = lower := by
  simp [staticAssignment]

theorem staticAssignment_hi (lower upper T w : Nat) :
    (staticAssignment lower upper T w).hi = (staticAssignment lower upper T (w + 1)).lo := by
  simp only [staticAssignment]
  have h : (w + 1) * ((upper - lower) / T) = w * ((upper - lower) / T) + (upper - lower) / T :=
    Nat.succ_mul _ _
  rw [h]
  split_ifs <;> omega

theorem staticAssignment_lo_le (lower upper T w : Nat) :
    lower ≤ (staticAssignment lower upper T w).lo := by
  simp only [staticAssignment]
  omega

theorem staticAssignment_lo_team (lower upper T : Nat) (hlu : lower ≤ upper) (hT : 1 ≤ T) :
    (staticAssignment lower upper T T).lo = upper := by
  simp only [staticAssignment]
  have h1 := Nat.div_add_mod (upper - lower) T
  have h2 := Nat.mod_lt (upper - lower) (show T > 0 by omega)
  have h3 : T * ((upper - lower) / T) = T * ((upper - lower) / T) := rfl
  omega

theorem staticAssignment_count (lower upper T : Nat) (i : Nat) :
    ∀ k, timesAssigned ((List.range k).map (staticAssignment lower upper T)) i
      = if lower ≤ i ∧ i < (staticAssignment lower upper T k).lo then 1 else 0 := by
  intro k
  induction k with
  | zero =>
    rw [staticAssignment_lo_zero, if_neg (by omega)]
    simp [timesAssigned]
  | succ k ih =>
    rw [List.range_succ, List.map_append, List.map_cons, List.map_nil, timesAssigned_append, ih,
      staticAssignment_hi]
    have h1 := staticAssignment_lo_le lower upper T k
    have h2 : (staticAssignment lower upper T k).lo ≤ (staticAssignment lower upper T (k + 1)).lo := by
      rw [← staticAssignment_hi]
      simp only [staticAssignment]
      generalize (upper - lower) / T = q
      omega
    split_ifs <;> omega

/-- Assignments of which no index lies in more than one are pairwise disjoint. -/
theorem pairwise_disjoint_of_count (asgs : List Assignment)
    (h : ∀ i, timesAssigned asgs i ≤ 1) : asgs.Pairwise Assignment.Disjoint := by
  induction asgs with
  | nil => exact List.Pairwise.nil
  | cons a rest ih =>
    have hcons : ∀ i, timesAssigned (a :: rest) i
        = timesAssigned rest i + (if a.covers i = true then 1 else 0) := by
      intro i
      unfold timesAssigned
      rw [List.countP_cons]
    rw [List.pairwise_cons]
    constructor
    · intro b hb
      unfold Assignment.Disjoint
      by_contra hcon
      have ha : a.covers (max a.lo b.lo) = true := by
        simp only [Assignment.covers, Bool.and_eq_true, decide_eq_true_eq]
        omega
      have hb' : b.covers (max a.lo b.lo) = true := by
        simp only [Assignment.covers, Bool.and_eq_true, decide_eq_true_eq]
        omega
      have h1 := h (max a.lo b.lo)
      rw [hcons, if_pos ha] at h1
      have h2 : 0 < timesAssigned rest (max a.lo b.lo) := List.countP_pos_iff.2 ⟨b, hb, hb'⟩
      omega
    · apply ih
      intro i
      have h1 := h i
      rw [hcons i] at h1
      omega

theorem count_le_one_of_eq {asgs : List Assignment} {lower upper : Nat}
    (h : ∀ i, timesAssigned asgs i = if lower ≤ i ∧ i < upper then 1 else 0) :
    ∀ i, timesAssigned asgs i ≤ 1 := by
  intro i
  rw [h i]
  split_ifs <;> omega

/-- Under the Static policy every index of the space lies in the block of
exactly one worker, and no other index lies in any block. -/
theorem distributeStatic_spec (lower upper T : Nat) (hlu : lower ≤ upper) (hT : 1 ≤ T) :
    ∃ asgs, distributeStatic lower upper T = Except.ok asgs ∧
      asgs.map (fun a => a.worker_id) = List.range T ∧
      asgs.Pairwise Assignment.Disjoint ∧
      ∀ i, timesAssigned asgs i = if lower ≤ i ∧ i < upper then 1 else 0 := by
  have hcount : ∀ i, timesAssigned ((List.range T).map (staticAssignment lower upper T)) i
      = if lower ≤ i ∧ i < upper then 1 else 0 := by
    intro i
    rw [staticAssignment_count, staticAssignment_lo_team lower upper T hlu hT]
  refine ⟨(List.range T).map (staticAssignment lower upper T), ?_, ?_,
    pairwise_disjoint_of_count _ (count_le_one_of_eq hcount), hcount⟩
  · unfold distributeStatic
    rw [if_neg (by omega)]
  · rw [List.map_map]
    apply List.ext_getElem
    · simp
    · intro k h₁ h₂
      simp [staticAssignment]

theorem distributeDynamic_ok {σ : Type} (lower upper chunk T : Nat) (hc : 0 < chunk) (hT : 1 ≤ T)
    (loopBody : σ → Nat → Nat → σ) (mem : σ) (sched : List Nat) :
    distributeDynamic lower upper chunk T loopBody mem sched
      = Except.ok (Engine.run lower upper chunk T loopBody mem sched) := by
  unfold distributeDynamic
  rw [if_neg (by omega)]

theorem workshare1_main_ok (m0 : omp_workshare1.Mem) (nthreads : Nat) (hT : 1 ≤ nthreads)
    (sched : List Nat) :
    omp_workshare1.main m0 nthreads sched
      = Except.ok (Engine.run 0 100 10 nthreads omp_workshare1.loopBody
          (omp_workshare1.init m0) sched) :=
  distributeDynamic_ok 0 100 10 nthreads (by omega) hT _ _ sched

theorem chunks_workshare1 :
    chunks 0 100 10 = [(0, 10), (10, 20), (20, 30), (30, 40), (40, 50), (50, 60), (60, 70),
      (70, 80), (80, 90), (90, 100)] := by
  decide

/-- C2. For every iteration space `[lower, upper)` with `lower <= upper` and
every team of at least one worker, the assignments handed out are pairwise
disjoint and contain every index of the space exactly once and no other index:
under the Static policy,
and under the Dynamic policy for every chunk size above zero and every order
in which the workers take their steps on the shared cursor, once all of them
have left the construct (which some order brings about); each assignment goes
to one worker of the team.  For
the loop of `omp_workshare1.c` (`N = 100`, `chunk = 10`) the chunks handed out
are exactly [0-9], [10-19], ..., [90-99], whatever the team and the order. -/
theorem C2_assignments_partition {σ : Type} (lower upper chunk T : Nat)
    (loopBody : σ → Nat → Nat → σ) (mem : σ) (sched : List Nat)
    (hlu : lower ≤ upper) (hT : 1 ≤ T) (hc : 0 < chunk)
    (hfin : (Engine.run lower upper chunk T loopBody mem sched).finished T) :
    (∃ asgs, distributeStatic lower upper T = Except.ok asgs ∧
      asgs.map (fun a => a.worker_id) = List.range T ∧
      asgs.Pairwise Assignment.Disjoint ∧
      ∀ i, timesAssigned asgs i = if lower ≤ i ∧ i < upper then 1 else 0) ∧
    (distributeDynamic lower upper chunk T loopBody mem sched
        = Except.ok (Engine.run lower upper chunk T loopBody mem sched) ∧
      (∀ a ∈ (Engine.run lower upper chunk T loopBody mem sched).handed, a.worker_id < T) ∧
      (Engine.run lower upper chunk T loopBody mem sched).handed.Pairwise Assignment.Disjoint ∧
      (∀ i, timesAssigned (Engine.run lower upper chunk T loopBody mem sched).handed i
        = if lower ≤ i ∧ i < upper then 1 else 0) ∧
      (Engine.run lower upper chunk T loopBody mem sched).ranges = chunks lower upper chunk ∧
      ∃ sched0, (Engine.run lower upper chunk T loopBody mem sched0).finished T) ∧
    (∀ (m0 : omp_workshare1.Mem) (nthreads : Nat) (sched1 : List Nat) (st : Engine omp_workshare1.Mem),
      1 ≤ nthreads → omp_workshare1.main m0 nthreads sched1 = Except.ok st →
      st.finished nthreads →
      st.ranges = [(0, 10), (10, 20), (20, 30), (30, 40), (40, 50), (50, 60), (60, 70),
        (70, 80), (80, 90), (90, 100)]) := by
  have h := Engine.finished_spec lower upper chunk T hlu hc hT loopBody mem sched hfin
  refine ⟨distributeStatic_spec lower upper T hlu hT,
    ⟨distributeDynamic_ok lower upper chunk T hc hT loopBody mem sched, h.2.2.1,
      pairwise_disjoint_of_count _ (count_le_one_of_eq h.2.2.2.1), h.2.2.2.1, h.2.1,
      Engine.exists_finishing lower upper chunk T hlu hc loopBody mem⟩,
    ?_⟩
  intro m0 nthreads sched1 st hn hmain hfin1
  rw [workshare1_main_ok m0 nthreads hn sched1] at hmain
  injection hmain with hst
  subst hst
  rw [(Engine.finished_spec 0 100 10 nthreads (by omega) (by omega) hn _ _ sched1 hfin1).2.1,
    chunks_workshare1]

/-- Witness of C2: the space `[3, 20)` in chunks of 4 over two workers taking
turns, and the loop of `omp_workshare1.c` over two threads taking turns. -/
theorem C2_assignments_partition_witness :
    (Engine.run 3 20 4 2 (fun (m : Nat) _ i => m + i) 0 (roundRobin 2 26)).ranges
      = [(3, 7), (7, 11), (11, 15), (15, 19), (19, 20)] ∧
    (Engine.run 0 100 10 2 omp_workshare1.loopBody
        (omp_workshare1.init omp_workshare1.zeroMem) (roundRobin 2 112)).ranges
      = [(0, 10), (10, 20), (20, 30), (30, 40), (40, 50), (50, 60), (60, 70),
        (70, 80), (80, 90), (90, 100)] := by
  have h := C2_assignments_partition 3 20 4 2 (fun (m : Nat) _ i => m + i) 0 (roundRobin 2 26)
    (by decide) (by decide) (by decide) (by decide)
  refine ⟨?_, ?_⟩
  · rw [h.2.1.2.2.2.2.1]
    decide
  · exact h.2.2 omp_workshare1.zeroMem 2 (roundRobin 2 112) _ (by decide)
      (workshare1_main_ok _ 2 (by decide) _) (by set_option maxRecDepth 100000 in decide)

/-! ## `omp_workshare1.c`: who receives how many chunks -/

theorem sum_ite_eq_range (c T : Nat) :
    ((List.range T).map (fun w => if c = w then 1 else 0)).sum = if c < T then 1 else 0 := by
  induction T with
  | zero => simp
  | succ n ih =>
    rw [List.range_succ, List.map_append, List.sum_append, ih]
    simp only [List.map_cons, List.map_nil, List.sum_cons, List.sum_nil]
    split_ifs <;> omega

/-- The numbers of assignments received by the workers of the team add up to
the number of assignments handed out. -/
theorem sum_received (asgs : List Assignment) (T : Nat) (h : ∀ a ∈ asgs, a.worker_id < T) :
    ((List.range T).map (fun w => asgs.countP (fun a => decide (a.worker_id = w)))).sum
      = asgs.length := by
  induction asgs with
  | nil => simp
  | cons a rest ih =>
    have hrest := ih (fun x hx => h x (List.mem_cons_of_mem _ hx))
    have ha := h a (List.mem_cons_self _ _)
    have hsplit : (fun w => (a :: rest).countP (fun x => decide (x.worker_id = w)))
        = (fun w => rest.countP (fun x => decide (x.worker_id = w))
            + (if a.worker_id = w then 1 else 0)) := by
      funext w
      rw [List.countP_cons]
      simp
    rw [hsplit, List.sum_map_add, hrest, sum_ite_eq_range, if_pos ha, List.length_cons]

theorem Engine.received_le_length {σ : Type} (st : Engine σ) (w : Nat) :
    st.received w ≤ st.handed.length :=
  List.countP_le_length _

theorem Engine.length_handed {σ : Type} (st : Engine σ) : st.handed.length = st.ranges.length := by
  simp [Engine.ranges]

theorem Engine.range_mem {σ : Type} (st : Engine σ) (a : Assignment) (ha : a ∈ st.handed) :
    (a.lo, a.hi) ∈ st.ranges :=
  List.mem_map.2 ⟨a, ha, rfl⟩

/-- C6 (as amended). In the scenario `team_size = 4`, space `[0,100)`, Dynamic
policy with `chunk = 10` (the loop of `omp_workshare1.c`), for every order in
which the four workers take their steps, once all have left the construct:
each worker has received between 0 and 10 assignments, the four together
exactly 10, and every assignment has length exactly 10 (so at most 10). -/
theorem C6_workshare1_chunks_per_worker (m0 : omp_workshare1.Mem) (sched : List Nat)
    (st : Engine omp_workshare1.Mem)
    (hmain : omp_workshare1.main m0 4 sched = Except.ok st) (hfin : st.finished 4) :
    (∀ w, w < 4 → 0 ≤ st.received w ∧ st.received w ≤ 10) ∧
    st.received 0 + st.received 1 + st.received 2 + st.received 3 = 10 ∧
    (∀ a ∈ st.handed, a.worker_id < 4 ∧ a.hi - a.lo = 10 ∧ a.hi - a.lo ≤ 10) := by
  rw [workshare1_main_ok m0 4 (by decide) sched] at hmain
  injection hmain with hst
  subst hst
  have h := Engine.finished_spec 0 100 10 4 (by omega) (by omega) (by omega) _ _ sched hfin
  have hlen : (Engine.run 0 100 10 4 omp_workshare1.loopBody (omp_workshare1.init m0)
      sched).handed.length = 10 := by
    rw [Engine.length_handed, h.2.1, chunks_workshare1]
    rfl
  refine ⟨?_, ?_, ?_⟩
  · intro w _
    have := Engine.received_le_length
      (Engine.run 0 100 10 4 omp_workshare1.loopBody (omp_workshare1.init m0) sched) w
    omega
  · have hs := sum_received _ 4 h.2.2.1
    rw [hlen] at hs
    simp only [List.range_succ, List.range_zero, List.nil_append, List.cons_append, List.map_cons,
      List.map_nil, List.sum_cons, List.sum_nil] at hs
    unfold Engine.received
    omega
  · intro a ha
    have hmem := Engine.range_mem _ a ha
    rw [h.2.1, chunks_workshare1] at hmem
    have hall : ∀ p ∈ [(0, 10), (10, 20), (20, 30), (30, 40), (40, 50), (50, 60), (60, 70),
        (70, 80), (80, 90), ((90 : Nat), (100 : Nat))], p.2 - p.1 = 10 := by decide
    have := hall _ hmem
    exact ⟨h.2.2.1 a ha, this, by simp only at this; omega⟩

/-- Witness of C6 (as amended): the four threads taking turns. -/
theorem C6_workshare1_chunks_per_worker_witness :
    (Engine.run 0 100 10 4 omp_workshare1.loopBody
        (omp_workshare1.init omp_workshare1.zeroMem) (roundRobin 4 136)).received 0
      + (Engine.run 0 100 10 4 omp_workshare1.loopBody
        (omp_workshare1.init omp_workshare1.zeroMem) (roundRobin 4 136)).received 1
      + (Engine.run 0 100 10 4 omp_workshare1.loopBody
        (omp_workshare1.init omp_workshare1.zeroMem) (roundRobin 4 136)).received 2
      + (Engine.run 0 100 10 4 omp_workshare1.loopBody
        (omp_workshare1.init omp_workshare1.zeroMem) (roundRobin 4 136)).received 3 = 10 :=
  (C6_workshare1_chunks_per_worker omp_workshare1.zeroMem (roundRobin 4 136) _
    (workshare1_main_ok _ 4 (by decide) _) (by set_option maxRecDepth 100000 in decide)).2.1

/-- Counterexample to C6 as stated: in the scenario of `omp_workshare1.c` with a
team of 4, when thread 0 claims and runs all ten chunks before the others reach
the loop, every thread has left the construct and thread 1 has received no
assignment at all, so not every worker receives at least 1. -/
theorem C6_some_worker_receives_none :
    ∃ st, omp_workshare1.main omp_workshare1.zeroMem 4 (firstTakesAll 4 111) = Except.ok st ∧
      st.finished 4 ∧ st.received 0 = 10 ∧ st.received 1 = 0 ∧
      ¬ (∀ w, w < 4 → 1 ≤ st.received w ∧ st.received w ≤ 10) := by
  refine ⟨_, workshare1_main_ok _ 4 (by decide) _, ?_, ?_, ?_, ?_⟩
  · set_option maxRecDepth 100000 in decide
  · set_option maxRecDepth 100000 in decide
  · set_option maxRecDepth 100000 in decide
  · intro h
    have h1 := (h 1 (by decide)).1
    have h0 : (Engine.run 0 100 10 4 omp_workshare1.loopBody
        (omp_workshare1.init omp_workshare1.zeroMem) (firstTakesAll 4 111)).received 1 = 0 := by
      set_option maxRecDepth 100000 in decide
    omega

/-! ## `omp_workshare1.c`: the arrays after the parallel region -/

theorem workshare1_init_spec (m0 : omp_workshare1.Mem) :
    (omp_workshare1.init m0).c = m0.c ∧
    ∀ i, i < 100 → (omp_workshare1.init m0).a i = F32.ofInt i ∧
      (omp_workshare1.init m0).b i = F32.ofInt i := by
  have key : ∀ n, ((List.range n).foldl
      (fun (m : omp_workshare1.Mem) i =>
        { m with a := Function.update m.a i (F32.ofInt i),
                 b := Function.update m.b i (F32.ofInt i) }) m0).c = m0.c ∧
      ∀ i, i < n → ((List.range n).foldl
        (fun (m : omp_workshare1.Mem) i =>
          { m with a := Function.update m.a i (F32.ofInt i),
                   b := Function.update m.b i (F32.ofInt i) }) m0).a i = F32.ofInt i ∧
        ((List.range n).foldl
        (fun (m : omp_workshare1.Mem) i =>
          { m with a := Function.update m.a i (F32.ofInt i),
                   b := Function.update m.b i (F32.ofInt i) }) m0).b i = F32.ofInt i := by
    intro n
    induction n with
    | zero => exact ⟨rfl, fun i hi => by omega⟩
    | succ n ih =>
      rw [List.range_succ, List.foldl_append]
      simp only [List.foldl_cons, List.foldl_nil]
      refine ⟨ih.1, ?_⟩
      intro i hi
      by_cases h : i = n
      · subst h; simp
      · rw [Function.update_noteq h, Function.update_noteq h]
        exact ih.2 i (by omega)
  exact key 100

/-- The loop body folded over any sequence of (thread, index) pairs leaves `a`
and `b` as they were and stores `a[j] + b[j]` in `c[j]` for the indices `j` of
the sequence. -/
theorem workshare1_fold_spec (es : List (Nat × Nat)) :
    ∀ m : omp_workshare1.Mem,
      (es.foldl (fun m e => omp_workshare1.loopBody m e.1 e.2) m).a = m.a ∧
      (es.foldl (fun m e => omp_workshare1.loopBody m e.1 e.2) m).b = m.b ∧
      ∀ j, (es.foldl (fun m e => omp_workshare1.loopBody m e.1 e.2) m).c j
        = if j ∈ es.map Prod.snd then m.a j + m.b j else m.c j := by
  induction es with
  | nil => intro m; simp
  | cons e es ih =>
    intro m
    rw [List.foldl_cons]
    obtain ⟨ha, hb, hcj⟩ := ih (omp_workshare1.loopBody m e.1 e.2)
    refine ⟨ha, hb, ?_⟩
    intro j
    rw [hcj j]
    simp only [omp_workshare1.loopBody, List.map_cons, List.mem_cons]
    by_cases hje : j = e.2
    · subst hje; simp
    · rw [Function.update_noteq hje]
      by_cases hmem : j ∈ List.map Prod.snd es
      · rw [if_pos hmem, if_pos (Or.inr hmem)]
      · rw [if_neg hmem, if_neg (fun h => h.elim hje hmem)]

theorem workshare1_mem_ext {m₁ m₂ : omp_workshare1.Mem} (ha : m₁.a = m₂.a) (hb : m₁.b = m₂.b)
    (hcc : m₁.c = m₂.c) : m₁ = m₂ := by
  cases m₁; cases m₂; simp_all

theorem workshare1_sequential_eq (m : omp_workshare1.Mem) :
    omp_workshare1.sequential m
      = ((List.range 100).map (fun i => ((0 : Nat), i))).foldl
          (fun m e => omp_workshare1.loopBody m e.1 e.2) m := by
  unfold omp_workshare1.sequential
  rw [List.foldl_map]
  rfl

/-- C10. After the parallel region of `omp_workshare1.c`, for every `i` in
`[0,100)`, `c[i] = a[i] + b[i] = 2*i`, while `a` and `b` are unchanged
(`a[i] = b[i] = i`); the final arrays are the same for every team of at least
one thread and every order in which the threads take their steps: they are the
arrays the sequential loop leaves.  Some order lets the whole team leave the
loop, for every team size. -/
theorem C10_workshare1_final_state (m0 : omp_workshare1.Mem) (nthreads : Nat) (sched : List Nat)
    (st : Engine omp_workshare1.Mem) (hT : 1 ≤ nthreads)
    (hmain : omp_workshare1.main m0 nthreads sched = Except.ok st)
    (hfin : st.finished nthreads) :
    (∀ i, i < 100 → st.mem.c i = ⟨2 * i⟩ ∧ st.mem.c i = st.mem.a i + st.mem.b i ∧
      st.mem.a i = ⟨i⟩ ∧ st.mem.b i = ⟨i⟩) ∧
    st.mem.a = (omp_workshare1.init m0).a ∧ st.mem.b = (omp_workshare1.init m0).b ∧
    st.mem = omp_workshare1.sequential (omp_workshare1.init m0) ∧
    (∃ sched1 st1, omp_workshare1.main m0 nthreads sched1 = Except.ok st1 ∧
      st1.finished nthreads) := by
  rw [workshare1_main_ok m0 nthreads hT sched] at hmain
  injection hmain with hst
  subst hst
  obtain ⟨_, _, _, _, hperm, hmem⟩ :=
    Engine.finished_spec 0 100 10 nthreads (by omega) (by omega) hT _ _ sched hfin
  obtain ⟨hic, hiab⟩ := workshare1_init_spec m0
  generalize Engine.run 0 100 10 nthreads omp_workshare1.loopBody (omp_workshare1.init m0) sched
    = st at hperm hmem
  obtain ⟨ha, hb, hcj⟩ := workshare1_fold_spec st.executed (omp_workshare1.init m0)
  rw [← hmem] at ha hb hcj
  have hin : ∀ j, j ∈ st.executed.map Prod.snd ↔ j < 100 := by
    intro j
    rw [hperm.mem_iff, List.mem_range'_1]
    omega
  have hval : ∀ i, i < 100 → F32.ofInt i = ⟨i⟩ := by
    intro i hi
    apply F32.ext_val
    exact F32.ofInt_val_of_lt (by omega)
  have hsum : ∀ i, i < 100 → (⟨i⟩ + ⟨i⟩ : F32) = ⟨2 * i⟩ := by
    intro i hi
    apply F32.ext_val
    rw [F32.add_val, roundF32_of_lt (by show i + i < 2 ^ 24; omega)]
    show i + i = 2 * i
    omega
  refine ⟨?_, ha, hb, ?_, ?_⟩
  · intro i hi
    have hc1 := hcj i
    rw [if_pos ((hin i).2 hi)] at hc1
    have hai : st.mem.a i = ⟨i⟩ := by rw [ha, (hiab i hi).1, hval i hi]
    have hbi : st.mem.b i = ⟨i⟩ := by rw [hb, (hiab i hi).2, hval i hi]
    refine ⟨?_, ?_, hai, hbi⟩
    · rw [hc1, (hiab i hi).1, (hiab i hi).2, hval i hi, hsum i hi]
    · rw [hc1, ha, hb]
  · rw [workshare1_sequential_eq]
    obtain ⟨sa, sb, sc⟩ := workshare1_fold_spec ((List.range 100).map (fun i => ((0 : Nat), i)))
      (omp_workshare1.init m0)
    apply workshare1_mem_ext
    · rw [ha, sa]
    · rw [hb, sb]
    · funext j
      rw [hcj j, sc j]
      have : j ∈ ((List.range 100).map (fun i => ((0 : Nat), i))).map Prod.snd ↔ j < 100 := by
        simp
      by_cases hj : j < 100
      · rw [if_pos ((hin j).2 hj), if_pos (this.2 hj)]
      · rw [if_neg (fun h => hj ((hin j).1 h)), if_neg (fun h => hj (this.1 h))]
  · obtain ⟨sched1, h1⟩ := Engine.exists_finishing 0 100 10 nthreads (by omega) (by omega)
      omp_workshare1.loopBody (omp_workshare1.init m0)
    exact ⟨sched1, _, workshare1_main_ok m0 nthreads hT sched1, h1⟩

/-- Witness of C10: three threads taking turns on zeroed arrays. -/
theorem C10_workshare1_final_state_witness :
    (Engine.run 0 100 10 3 omp_workshare1.loopBody
        (omp_workshare1.init omp_workshare1.zeroMem) (roundRobin 3 135)).mem
      = omp_workshare1.sequential (omp_workshare1.init omp_workshare1.zeroMem) :=
  (C10_workshare1_final_state omp_workshare1.zeroMem 3 (roundRobin 3 135) _ (by decide)
    (workshare1_main_ok _ 3 (by decide) _) (by set_option maxRecDepth 100000 in decide)).2.2.2.1

/-! ## The sections dispatcher -/

theorem dispatchSections_ok {σ : Type} (N M : Nat) (hM : 1 ≤ M) (runSection : σ → Nat → Nat → σ)
    (mem : σ) (sched : List Nat) :
    dispatchSections N M runSection mem sched
      = Except.ok (Engine.run 0 N 1 M runSection mem sched) :=
  distributeDynamic_ok 0 N 1 M (by omega) hM runSection mem sched

theorem claim_next_none {N cursor : Nat} (h : N ≤ cursor) : claim_next N cursor = (none, cursor) := by
  simp [claim_next, claim_none h]

theorem claim_next_some {N cursor : Nat} (h : cursor < N) :
    claim_next N cursor = (some cursor, cursor + 1) := by
  simp only [claim_next, claim_some h]
  congr 1
  omega

theorem chunks_one (N : Nat) : chunks 0 N 1 = (List.range N).map (fun k => (k, k + 1)) := by
  unfold chunks
  simp only [Nat.sub_zero, Nat.add_sub_cancel, Nat.div_one, Nat.mul_one, Nat.zero_add]
  apply List.map_congr_left
  intro k hk
  have := List.mem_range.1 hk
  simp only [Prod.mk.injEq, true_and]
  omega

/-- Once the cursor has reached the end of the space no step hands out
anything any more. -/
theorem Engine.handed_frozen {σ : Type} (upper chunk T : Nat) (loopBody : σ → Nat → Nat → σ)
    (more : List Nat) :
    ∀ st : Engine σ, upper ≤ st.cursor →
      (more.foldl (Engine.step upper chunk T loopBody) st).handed = st.handed ∧
      (more.foldl (Engine.step upper chunk T loopBody) st).cursor = st.cursor := by
  induction more with
  | nil => intro st _; exact ⟨rfl, rfl⟩
  | cons w rest ih =>
    intro st hst
    rw [List.foldl_cons]
    have hstep : (Engine.step upper chunk T loopBody st w).handed = st.handed ∧
        (Engine.step upper chunk T loopBody st w).cursor = st.cursor := by
      rcases Engine.step_cases upper chunk T loopBody st w with
        ⟨he, _⟩ | ⟨i, hi, _, _, he⟩ | ⟨_, _, hcur, _⟩ | ⟨_, _, _, he⟩
      · rw [he]; exact ⟨rfl, rfl⟩
      · rw [he]; exact ⟨rfl, rfl⟩
      · omega
      · rw [he]; exact ⟨rfl, rfl⟩
    obtain ⟨h1, h2⟩ := ih (Engine.step upper chunk T loopBody st w) (by rw [hstep.2]; exact hst)
    exact ⟨h1.trans hstep.1, h2.trans hstep.2⟩

/-! ## `omp_workshare2.c`: which sections run -/

theorem workshare2_inner_out {α : Type} (f : omp_workshare2.Mem α → Nat → omp_workshare2.Mem α)
    (hf : ∀ m i, (f m i).out = m.out) (l : List Nat) :
    ∀ m, (l.foldl f m).out = m.out := by
  induction l with
  | nil => intro m; rfl
  | cons i l ih => intro m; rw [List.foldl_cons, ih, hf]

theorem workshare2_runSection_out {α : Type} [Add α] [Mul α] (a b : Nat → α)
    (m : omp_workshare2.Mem α) (tid k : Nat) :
    (omp_workshare2.runSection a b m tid k).out
      = if k < 2 then m.out ++ [(tid, k + 1)] else m.out := by
  match k with
  | 0 =>
    have h := workshare2_inner_out
      (fun (m : omp_workshare2.Mem α) i => { m with c := Function.update m.c i (a i + b i) })
      (fun _ _ => rfl) (List.range omp_workshare2.N) { m with out := m.out ++ [(tid, 1)] }
    simp only [omp_workshare2.runSection, omp_workshare2.section1]
    rw [h]
    simp
  | 1 =>
    have h := workshare2_inner_out
      (fun (m : omp_workshare2.Mem α) i => { m with d := Function.update m.d i (a i * b i) })
      (fun _ _ => rfl) (List.range omp_workshare2.N) { m with out := m.out ++ [(tid, 2)] }
    simp only [omp_workshare2.runSection, omp_workshare2.section2]
    rw [h]
    simp
  | k + 2 => simp [omp_workshare2.runSection]

theorem workshare2_timesRun_fold {α : Type} [Add α] [Mul α] (a b : Nat → α)
    (es : List (Nat × Nat)) (k : Nat) (hk : k < 2) :
    ∀ m : omp_workshare2.Mem α,
      omp_workshare2.timesRun (es.foldl (fun m e => omp_workshare2.runSection a b m e.1 e.2) m)
        (k + 1) = omp_workshare2.timesRun m (k + 1) + (es.map Prod.snd).count k := by
  induction es with
  | nil => intro m; simp
  | cons e es ih =>
    intro m
    rw [List.foldl_cons, ih, List.map_cons, List.count_cons]
    have : omp_workshare2.timesRun (omp_workshare2.runSection a b m e.1 e.2) (k + 1)
        = omp_workshare2.timesRun m (k + 1) + (if e.2 == k then 1 else 0) := by
      unfold omp_workshare2.timesRun
      rw [workshare2_runSection_out]
      by_cases h2 : e.2 < 2
      · rw [if_pos h2, List.countP_append]
        simp only [List.countP_cons, List.countP_nil, Nat.zero_add, Nat.add_right_cancel_iff,
          decide_eq_true_eq, beq_iff_eq]
      · rw [if_neg h2, if_neg (by simp only [beq_iff_eq]; omega)]
        rfl
    rw [this]
    omega

/-- C4. For every number `N` of sections, every team of `M >= 1` workers and
every order in which the workers take their steps, once all workers have left
the construct every section has been claimed exactly once, by one worker of
the team, and run exactly once; after any schedule at all, once `N` sections
are claimed `claim_next` returns nothing, and further steps hand out nothing.
For `omp_workshare2.c` (`N = 2`) the lines `doing section 1` and
`doing section 2` are each printed exactly once whatever the team size.  Some
order lets the whole team leave the construct. -/
theorem C4_sections_claimed_once {σ : Type} (N M : Nat) (runSection : σ → Nat → Nat → σ)
    (mem : σ) (sched : List Nat) (hM : 1 ≤ M)
    (hfin : (Engine.run 0 N 1 M runSection mem sched).finished M) :
    dispatchSections N M runSection mem sched
      = Except.ok (Engine.run 0 N 1 M runSection mem sched) ∧
    (Engine.run 0 N 1 M runSection mem sched).ranges = (List.range N).map (fun k => (k, k + 1)) ∧
    (∀ a ∈ (Engine.run 0 N 1 M runSection mem sched).handed, a.worker_id < M) ∧
    (∀ s, timesAssigned (Engine.run 0 N 1 M runSection mem sched).handed s
      = if s < N then 1 else 0) ∧
    (∀ s, ((Engine.run 0 N 1 M runSection mem sched).executed.map Prod.snd).count s
      = if s < N then 1 else 0) ∧
    (∀ sched1, (Engine.run 0 N 1 M runSection mem sched1).handed.length = N →
      claim_next N (Engine.run 0 N 1 M runSection mem sched1).cursor
        = (none, (Engine.run 0 N 1 M runSection mem sched1).cursor) ∧
      ∀ more, (Engine.run 0 N 1 M runSection mem (sched1 ++ more)).handed
        = (Engine.run 0 N 1 M runSection mem sched1).handed) ∧
    (∀ (α : Type) [Add α] [Mul α] (a b c d : Nat → α) (nthreads : Nat) (sched2 : List Nat)
        (st : Engine (omp_workshare2.Mem α)),
      1 ≤ nthreads → omp_workshare2.parallel a b ⟨c, d, []⟩ nthreads sched2 = Except.ok st →
      st.finished nthreads →
      omp_workshare2.timesRun st.mem 1 = 1 ∧ omp_workshare2.timesRun st.mem 2 = 1) ∧
    (∃ sched3, (Engine.run 0 N 1 M runSection mem sched3).finished M) := by
  obtain ⟨hcur, hranges, howner, hcount, hperm, _⟩ :=
    Engine.finished_spec 0 N 1 M (by omega) (by omega) hM runSection mem sched hfin
  have hcnt : ∀ (l : List Nat) (n s : Nat), l.Perm (List.range' 0 (n - 0)) →
      l.count s = if s < n then 1 else 0 := by
    intro l n s hp
    rw [hp.count_eq, Nat.sub_zero, ← List.range_eq_range', List.count_eq_of_nodup (List.nodup_range _)]
    simp only [List.mem_range]
  refine ⟨dispatchSections_ok N M hM runSection mem sched, ?_, howner, ?_, ?_, ?_, ?_, ?_⟩
  · rw [hranges, chunks_one]
  · intro s
    rw [hcount s]
    simp
  · intro s
    exact hcnt _ N s hperm
  · intro sched1 hlen
    have hh := Engine.handedInv_run 0 N 1 M (by omega) (by omega) runSection mem sched1
    have hc1 : N ≤ (Engine.run 0 N 1 M runSection mem sched1).cursor := by
      have := hh.cursor_eq
      rw [hlen] at this
      omega
    refine ⟨claim_next_none hc1, ?_⟩
    intro more
    rw [Engine.run_append]
    exact (Engine.handed_frozen N 1 M runSection more _ hc1).1
  · intro α _ _ a b c d nthreads sched2 st hn hpar hfin2
    unfold omp_workshare2.parallel at hpar
    rw [dispatchSections_ok 2 nthreads hn] at hpar
    injection hpar with hst
    subst hst
    obtain ⟨_, _, _, _, hperm2, hmem2⟩ :=
      Engine.finished_spec 0 2 1 nthreads (by omega) (by omega) hn _ _ sched2 hfin2
    rw [hmem2]
    constructor
    · rw [workshare2_timesRun_fold a b _ 0 (by omega), hcnt _ 2 0 hperm2]
      rfl
    · rw [workshare2_timesRun_fold a b _ 1 (by omega), hcnt _ 2 1 hperm2]
      rfl
  · exact Engine.exists_finishing 0 N 1 M (by omega) (by omega) runSection mem

/-- Witness of C4: the two sections of `omp_workshare2.c` on integer arrays,
run by a team of three taking turns. -/
theorem C4_sections_claimed_once_witness :
    (Engine.run 0 2 1 3 (omp_workshare2.runSection (fun i => (i : Int)) (fun i => (i : Int) + 2))
        omp_workshare2.zeroMem (roundRobin 3 9)).ranges = [(0, 1), (1, 2)] :=
  (C4_sections_claimed_once 2 3
    (omp_workshare2.runSection (fun i => (i : Int)) (fun i => (i : Int) + 2))
    omp_workshare2.zeroMem (roundRobin 3 9) (by decide) (by decide)).2.1

/-! ## The sections dispatcher: workers that claim nothing -/

theorem idle_count_ge (r : Nat → Nat) (ws : List Nat) :
    ws.length ≤ (ws.filter (fun w => decide (r w = 0))).length + (ws.map r).sum ∧
    ((∀ w ∈ ws, r w ≤ 1) →
      (ws.filter (fun w => decide (r w = 0))).length + (ws.map r).sum = ws.length) := by
  induction ws with
  | nil => simp
  | cons w ws ih =>
    have hmem : (∀ x ∈ w :: ws, r x ≤ 1) → (∀ x ∈ ws, r x ≤ 1) :=
      fun h x hx => h x (List.mem_cons_of_mem _ hx)
    by_cases h0 : r w = 0
    · rw [List.filter_cons_of_pos (by simpa using h0)]
      simp only [List.length_cons, List.map_cons, List.sum_cons]
      refine ⟨by omega, fun h => ?_⟩
      have := ih.2 (hmem h)
      omega
    · rw [List.filter_cons_of_neg (by simpa using h0)]
      simp only [List.length_cons, List.map_cons, List.sum_cons]
      refine ⟨by omega, fun h => ?_⟩
      have := ih.2 (hmem h)
      have := h w (List.mem_cons_self _ _)
      omega

theorem workshare2_parallel_ok {α : Type} [Add α] [Mul α] (a b : Nat → α)
    (m : omp_workshare2.Mem α) (nthreads : Nat) (hT : 1 ≤ nthreads) (sched : List Nat) :
    omp_workshare2.parallel a b m nthreads sched
      = Except.ok (Engine.run 0 2 1 nthreads (omp_workshare2.runSection a b) m sched) :=
  dispatchSections_ok 2 nthreads hT _ _ sched

/-- C5 (as amended). For `N` sections and `M > N` workers, for every order in
which the workers take their steps, once all have left the construct at least
`M - N` workers have claimed no section; exactly `M - N` have claimed none when
no worker has claimed more than one section. -/
theorem C5_excess_workers_claim_none {σ : Type} (N M : Nat) (runSection : σ → Nat → Nat → σ)
    (mem : σ) (sched : List Nat) (hMN : N < M)
    (hfin : (Engine.run 0 N 1 M runSection mem sched).finished M) :
    M - N ≤ (Engine.run 0 N 1 M runSection mem sched).claimedNone M ∧
    ((∀ w, w < M → (Engine.run 0 N 1 M runSection mem sched).received w ≤ 1) →
      (Engine.run 0 N 1 M runSection mem sched).claimedNone M = M - N) := by
  obtain ⟨_, hranges, howner, _, _, _⟩ :=
    Engine.finished_spec 0 N 1 M (by omega) (by omega) (by omega) runSection mem sched hfin
  generalize Engine.run 0 N 1 M runSection mem sched = st at hranges howner
  have hlen : st.handed.length = N := by
    rw [Engine.length_handed, hranges, chunks_one]
    simp
  have hsum : ((List.range M).map (fun w => st.received w)).sum = N := by
    have := sum_received st.handed M howner
    rw [hlen] at this
    exact this
  obtain ⟨hge, heq⟩ := idle_count_ge (fun w => st.received w) (List.range M)
  rw [hsum, List.length_range] at hge
  unfold Engine.claimedNone
  refine ⟨by omega, fun h => ?_⟩
  have := heq (fun w hw => h w (List.mem_range.1 hw))
  rw [hsum, List.length_range] at this
  omega

/-- Witness of C5 (as amended): the two sections of `omp_workshare2.c` and a
team of four taking turns; threads 0 and 1 take one section each. -/
theorem C5_excess_workers_claim_none_witness :
    (Engine.run 0 2 1 4 (omp_workshare2.runSection (fun i => (i : Int)) (fun i => (i : Int) + 2))
        omp_workshare2.zeroMem (roundRobin 4 12)).claimedNone 4 = 4 - 2 :=
  (C5_excess_workers_claim_none 2 4
    (omp_workshare2.runSection (fun i => (i : Int)) (fun i => (i : Int) + 2))
    omp_workshare2.zeroMem (roundRobin 4 12) (by decide) (by decide)).2 (by decide)

/-- Counterexample to C5 as stated: the two sections of `omp_workshare2.c` and a
team of four in which thread 0 claims and runs both sections before the others
reach the construct: every thread has left the construct and three threads, not
`4 - 2 = 2`, have claimed no section. -/
theorem C5_three_of_four_claim_none :
    ∃ st, omp_workshare2.parallel (fun i => (i : Int)) (fun i => (i : Int) + 2)
        omp_workshare2.zeroMem 4 (firstTakesAll 4 5) = Except.ok st ∧
      st.finished 4 ∧ st.received 0 = 2 ∧ st.claimedNone 4 = 3 ∧ st.claimedNone 4 ≠ 4 - 2 := by
  refine ⟨_, workshare2_parallel_ok _ _ _ 4 (by decide) _, ?_, ?_, ?_, ?_⟩ <;> decide

/-! ## `producer_consumer.c`: the consumer gets the item only when it is there -/

namespace producer_consumer

theorem handoff_inv_start : Inv start := by
  refine ⟨?_, ?_, ?_, ?_, ?_⟩ <;> simp [start]

theorem handoff_inv_consumer {s s' : State} (h : Inv s) (hs : consumer s = some s') : Inv s' := by
  obtain ⟨item, mutex, cpc, ppc⟩ := s
  obtain ⟨h1, h2, h3, h4, h5⟩ := h
  cases cpc <;> simp only [consumer] at hs
  · split_ifs at hs with hm
    injection hs with hs; subst hs
    simp only at hm; subst hm
    refine ⟨?_, ?_, ?_, ?_, ?_⟩ <;> simp_all
  · split_ifs at hs with hm <;> (injection hs with hs; subst hs)
    · refine ⟨?_, ?_, ?_, ?_, ?_⟩ <;> simp_all
    · refine ⟨?_, ?_, ?_, ?_, ?_⟩ <;> simp_all
  · injection hs with hs; subst hs
    refine ⟨?_, ?_, ?_, ?_, ?_⟩ <;> simp_all
  · injection hs with hs; subst hs
    refine ⟨?_, ?_, ?_, ?_, ?_⟩ <;> simp_all
  · cases hs
  · split_ifs at hs with hm
    injection hs with hs; subst hs
    simp only at hm; subst hm
    refine ⟨?_, ?_, ?_, ?_, ?_⟩ <;> simp_all
  · injection hs with hs; subst hs
    refine ⟨?_, ?_, ?_, ?_, ?_⟩ <;> simp_all
  · injection hs with hs; subst hs
    refine ⟨?_, ?_, ?_, ?_, ?_⟩ <;> simp_all
  · cases hs

theorem handoff_inv_producer {s s' : State} (h : Inv s) (hs : producer s = some s') : Inv s' := by
  obtain ⟨item, mutex, cpc, ppc⟩ := s
  obtain ⟨h1, h2, h3, h4, h5⟩ := h
  cases ppc <;> simp only [producer] at hs
  · injection hs with hs; subst hs
    refine ⟨?_, ?_, ?_, ?_, ?_⟩ <;> simp_all
  · split_ifs at hs with hm
    injection hs with hs; subst hs
    simp only at hm; subst hm
    refine ⟨?_, ?_, ?_, ?_, ?_⟩ <;> simp_all
  · injection hs with hs; subst hs
    refine ⟨?_, ?_, ?_, ?_, ?_⟩ <;> simp_all
  · injection hs with hs; subst hs
    refine ⟨?_, ?_, ?_, ?_, ?_⟩ <;> simp_all
  · injection hs with hs; subst hs
    cases cpc <;> refine ⟨?_, ?_, ?_, ?_, ?_⟩ <;> simp_all
  · injection hs with hs; subst hs
    cases cpc <;> refine ⟨?_, ?_, ?_, ?_, ?_⟩ <;> simp_all
  · cases hs

theorem handoff_inv_step {s s' : State} (a : Action) (h : Inv s) (hs : step s a = some s') : Inv s' := by
  cases a
  · exact handoff_inv_producer h hs
  · exact handoff_inv_consumer h hs
  · simp only [step] at hs
    split_ifs at hs with hb
    injection hs with hs; subst hs
    obtain ⟨h1, h2, h3, h4, h5⟩ := h
    refine ⟨?_, ?_, ?_, ?_, ?_⟩ <;> simp_all

theorem handoff_inv_run (acts : List Action) : ∀ {s s' : State}, Inv s → run s acts = some s' → Inv s' := by
  induction acts with
  | nil =>
    intro s s' h hs
    simp only [run] at hs
    injection hs with hs; subst hs; exact h
  | cons a rest ih =>
    intro s s' h hs
    simp only [run] at hs
    cases hstep : step s a with
    | none => rw [hstep] at hs; cases hs
    | some s₁ =>
      rw [hstep] at hs
      exact ih (handoff_inv_step a h hstep) hs

/-- No step stores anything but 1 in `item_available`. -/
theorem item_kept_step {s s' : State} (a : Action) (hs : step s a = some s')
    (h1 : s.item_available = 1) : s'.item_available = 1 := by
  obtain ⟨item, mutex, cpc, ppc⟩ := s
  cases a
  · cases ppc <;> simp only [step, producer] at hs <;> (try split_ifs at hs) <;>
      (cases hs <;> first | exact h1 | rfl)
  · cases cpc <;> simp only [step, consumer] at hs <;> (try split_ifs at hs) <;>
      (cases hs <;> exact h1)
  · simp only [step] at hs
    split_ifs at hs
    cases hs
    exact h1

theorem item_kept_run (acts : List Action) :
    ∀ {s s' : State}, run s acts = some s' → s.item_available = 1 → s'.item_available = 1 := by
  induction acts with
  | nil =>
    intro s s' hs h1
    simp only [run] at hs
    injection hs with hs; subst hs; exact h1
  | cons a rest ih =>
    intro s s' hs h1
    simp only [run] at hs
    cases hstep : step s a with
    | none => rw [hstep] at hs; cases hs
    | some s₁ =>
      rw [hstep] at hs
      exact ih hs (item_kept_step a hstep h1)

end producer_consumer

/-- C9. In `producer_consumer.c`, as a step relation over `item_available`, the
owner of the mutex and the program counters of the two threads, in which
`pthread_cond_wait` may return without a signal: in every reachable state in
which the consumer is at the `Got the item` step, `item_available` is 1 (not
0) and the consumer holds the mutex; the consumer leaves the wait loop only
from a state in which it holds the mutex and `item_available` is 1, and a
wake-up with `item_available == 0` sends it back to waiting; and once
`item_available` is 1 it is 1 in every later state. -/
theorem C9_consumer_gets_item_only_when_available (acts : List producer_consumer.Action)
    (s : producer_consumer.State)
    (hreach : producer_consumer.run producer_consumer.start acts = some s) :
    (s.cpc = producer_consumer.CPc.got →
      s.item_available = 1 ∧ s.item_available ≠ 0 ∧
        s.mutex = some producer_consumer.Thread.consumer) ∧
    (∀ s', s.cpc = producer_consumer.CPc.test →
      producer_consumer.step s producer_consumer.Action.consumerStep = some s' →
      (s'.cpc = producer_consumer.CPc.got →
        s.mutex = some producer_consumer.Thread.consumer ∧ s.item_available = 1 ∧
        s'.mutex = some producer_consumer.Thread.consumer ∧ s'.item_available = 1) ∧
      (s.item_available = 0 → s'.cpc = producer_consumer.CPc.printWait)) ∧
    (∀ more s', producer_consumer.run s more = some s' →
      s.item_available = 1 → s'.item_available = 1) := by
  have hinv := producer_consumer.handoff_inv_run acts producer_consumer.handoff_inv_start hreach
  refine ⟨?_, ?_, ?_⟩
  · intro hgot
    have h1 := hinv.consumer_past (Or.inl hgot)
    exact ⟨h1, by rw [h1]; decide, hinv.consumer_owns (by simp [hgot])⟩
  · intro s' htest hstep
    have hinv' := producer_consumer.handoff_inv_step _ hinv hstep
    refine ⟨?_, ?_⟩
    · intro hgot
      have hitem : s'.item_available = s.item_available := by
        simp only [producer_consumer.step, producer_consumer.consumer, htest] at hstep
        split_ifs at hstep <;> (injection hstep with hstep; subst hstep; rfl)
      have h1 := hinv'.consumer_past (Or.inl hgot)
      exact ⟨hinv.consumer_owns (Or.inl htest), by rw [← hitem]; exact h1,
        hinv'.consumer_owns (by simp [hgot]), h1⟩
    · intro h0
      simp only [producer_consumer.step, producer_consumer.consumer, htest, h0, if_true] at hstep
      injection hstep with hstep
      subst hstep
      rfl
  · intro more s' hrun h1
    exact producer_consumer.item_kept_run more hrun h1

/-- Witness of C9: the consumer waits, wakes up once without a signal, waits
again, is signalled and reaches the `Got the item` step with the item there. -/
theorem C9_consumer_gets_item_only_when_available_witness :
    producer_consumer.run producer_consumer.start producer_consumer.spuriousThenSignalled
      = some ⟨1, some producer_consumer.Thread.consumer, producer_consumer.CPc.got,
          producer_consumer.PPc.returned⟩ ∧
    (1 : Int) ≠ 0 :=
  ⟨by decide,
   ((C9_consumer_gets_item_only_when_available producer_consumer.spuriousThenSignalled
      ⟨1, some producer_consumer.Thread.consumer, producer_consumer.CPc.got,
        producer_consumer.PPc.returned⟩ (by decide)).1 rfl).2.1⟩

end HPC
